import Mathlib

/-!
subneter: enumeration of the addresses of a CIDR block.

A shallow embedding of `main.go` together with the parts of Go's `net`,
`net/netip`, `strings`, `fmt` and `encoding/json` packages that `main.go`
calls.  Bytes are natural numbers below 256 (wraparound is written `% 256`),
a byte slice is a `List Nat`, the nil slice is `[]`, and a Go string is a
Lean `String` (the characters that matter here are ASCII).

Functions that can end the process (`log.Fatalln`), hit a run-time panic or
loop forever return an `Outcome`; loops whose termination depends on the
input take a fuel argument that counts evaluations of the loop condition.
-/

namespace GoNet

/-- Go `net.IP`: a slice of bytes, here octets below 256. -/
abbrev IP := List Nat

/-- Go `net.IPMask`. -/
abbrev IPMask := List Nat

/-- Go `net.IPNet`. -/
structure IPNet where
  IP : IP
  Mask : IPMask
deriving DecidableEq, Repr

/-- Go `net.IPv4len`. -/
def IPv4len : Nat := 4

/-- Go `net.IPv6len`. -/
def IPv6len : Nat := 16

/-- Go `net.v4InV6Prefix`, the twelve bytes in front of an IPv4 address in
its 16-byte form. -/
def v4InV6Head : List Nat := [0, 0, 0, 0, 0, 0, 0, 0, 0, 0, 255, 255]

/-- Go `net.allFF`. -/
def allFF (b : List Nat) : Bool := b.all (fun c => c == 255)

/-- Go `net.isZeros`. -/
def isZeros (b : List Nat) : Bool := b.all (fun c => c == 0)

/-- One byte of `net.CIDRMask`: with `n` one-bits still to place the byte
is `0xff` when `n >= 8` and `^byte(0xff >> n)` otherwise. -/
def maskByte (n : Nat) : Nat := if n ≥ 8 then 255 else 255 - (255 >>> n)

/-- The loop of `net.CIDRMask` over the `l` bytes of the mask. -/
def cidrMaskLoop : Nat → Nat → IPMask
  | 0, _ => []
  | l + 1, n => maskByte n :: cidrMaskLoop l (n - 8)

/-- Go `net.CIDRMask(ones, bits)`; the nil mask is `[]`. -/
def CIDRMask (ones bits : Nat) : IPMask :=
  if bits ≠ 8 * IPv4len ∧ bits ≠ 8 * IPv6len then []
  else if ones > bits then []
  else cidrMaskLoop (bits / 8) ones

/-- Go `(ip IP) Mask(mask IPMask) IP`; the nil result is `[]`. -/
def IP.Mask (ip : IP) (mask : IPMask) : IP :=
  let mask1 := if mask.length = IPv6len ∧ ip.length = IPv4len ∧ allFF (mask.take 12) = true
    then mask.drop 12 else mask
  let ip1 := if mask1.length = IPv4len ∧ ip.length = IPv6len ∧ ip.take 12 = v4InV6Head
    then ip.drop 12 else ip
  if ip1.length ≠ mask1.length then []
  else List.zipWith (fun a m => a &&& m) ip1 mask1

/-- Go `(ip IP) To4() IP`; `none` is the nil result. -/
def IP.To4 (ip : IP) : Option IP :=
  if ip.length = IPv4len then some ip
  else if ip.length = IPv6len ∧ isZeros (ip.take 10) = true ∧ ip.getD 10 0 = 255 ∧
      ip.getD 11 0 = 255 then some ((ip.drop 12).take 4)
  else none

/-- Go `net.networkNumberAndMask`; the pair of nil slices is `([], [])`. -/
def networkNumberAndMask (n : IPNet) : IP × IPMask :=
  let ip? : Option IP :=
    match IP.To4 n.IP with
    | some ip4 => some ip4
    | none => if n.IP.length ≠ IPv6len then none else some n.IP
  match ip? with
  | none => ([], [])
  | some ip =>
    if n.Mask.length = IPv4len then
      if ip.length ≠ IPv4len then ([], []) else (ip, n.Mask)
    else if n.Mask.length = IPv6len then
      if ip.length = IPv4len then (ip, n.Mask.drop 12) else (ip, n.Mask)
    else ([], [])

/-- The comparison loop of `Contains`: `nn[i]&m[i] == ip[i]&m[i]` for every
index (the three slices have the same length when it runs). -/
def sameMasked : IP → IP → IPMask → Bool
  | a :: as, b :: bs, m :: ms => (a &&& m) == (b &&& m) && sameMasked as bs ms
  | _, _, _ => true

/-- Go `(n *IPNet) Contains(ip IP) bool`. -/
def IPNet.Contains (n : IPNet) (ip : GoNet.IP) : Bool :=
  let nm := networkNumberAndMask n
  let ip1 := match IP.To4 ip with
    | some x => x
    | none => ip
  if ip1.length ≠ nm.1.length then false
  else sameMasked nm.1 ip1 nm.2

/-- The decimal digit character of `n < 10`. -/
def digitChar (n : Nat) : Char := Char.ofNat (48 + n)

/-- Go `net.ubtoa` without the buffer: the decimal text of a byte, no
leading zeros. -/
def ubtoa (v : Nat) : List Char :=
  if v < 10 then [digitChar v]
  else if v < 100 then [digitChar (v / 10), digitChar (v % 10)]
  else [digitChar (v / 100), digitChar (v / 10 % 10), digitChar (v % 10)]

/-- The dotted-decimal text of four bytes. -/
def dotted (a b c d : Nat) : List Char :=
  ubtoa a ++ '.' :: (ubtoa b ++ '.' :: (ubtoa c ++ '.' :: ubtoa d))

/-- One lower-case hexadecimal digit. -/
def hexDigit (n : Nat) : Char := if n < 10 then Char.ofNat (48 + n) else Char.ofNat (87 + n)

/-- Go `netip.appendHex`: a 16-bit group in lower-case hexadecimal without
leading zeros. -/
def appendHex (x : Nat) : List Char :=
  if x ≥ 4096 then [hexDigit (x / 4096), hexDigit (x / 256 % 16), hexDigit (x / 16 % 16),
    hexDigit (x % 16)]
  else if x ≥ 256 then [hexDigit (x / 256), hexDigit (x / 16 % 16), hexDigit (x % 16)]
  else if x ≥ 16 then [hexDigit (x / 16), hexDigit (x % 16)]
  else [hexDigit x]

/-- Go `netip.Addr.v6u16`: the `i`-th 16-bit group of a 16-byte address. -/
def v6u16 (ip : IP) (i : Nat) : Nat := ip.getD (2 * i) 0 * 256 + ip.getD (2 * i + 1) 0

/-- Length of the run of zero groups that starts at group `i`. -/
def zeroRun (ip : IP) (i : Nat) : Nat :=
  (((List.range 8).drop i).takeWhile (fun j => v6u16 ip j == 0)).length

/-- The first loop of `netip.Addr.AppendTo` for IPv6: the longest run of at
least two zero groups, as `(zeroStart, zeroEnd)`, `(255, 255)` when none. -/
def longestZeroRun (ip : IP) : Nat × Nat :=
  (List.range 8).foldl
    (fun se i =>
      let l := zeroRun ip i
      if l ≥ 2 ∧ l > se.2 - se.1 then (i, i + l) else se)
    (255, 255)

/-- The second loop of `netip.Addr.AppendTo` for IPv6, from group `i`. -/
def appendGroups (ip : IP) (zs ze : Nat) : Nat → Nat → List Char
  | 0, _ => []
  | fuel + 1, i =>
    if i ≥ 8 then []
    else if i = zs then
      ':' :: ':' :: (if ze ≥ 8 then [] else appendHex (v6u16 ip ze) ++ appendGroups ip zs ze fuel (ze + 1))
    else
      (if i > 0 then [':'] else []) ++ appendHex (v6u16 ip i) ++ appendGroups ip zs ze fuel (i + 1)

/-- Go `net.hexString`: two lower-case hexadecimal digits per byte. -/
def hexString (b : List Nat) : List Char :=
  b.flatMap (fun v => [hexDigit (v / 16), hexDigit (v % 16)])

/-- Go `(ip IP) String() string`. -/
def IP.String (ip : IP) : String :=
  if ip.length = 0 then "<nil>"
  else if ip.length ≠ IPv4len ∧ ip.length ≠ IPv6len then String.mk ('?' :: hexString ip)
  else
    match IP.To4 ip with
    | some [a, b, c, d] => String.mk (dotted a b c d)
    | _ =>
      let se := longestZeroRun ip
      String.mk (appendGroups ip se.1 se.2 9 0)

/-- Go `net.dtoi` from the state `(n, i)`: decimal digits at the front of
the text; the result is `(n, i, ok)` and `big = 0xFFFFFF` stops the scan. -/
def dtoiLoop : List Char → Nat → Nat → Nat × Nat × Bool
  | [], n, i => if i = 0 then (0, 0, false) else (n, i, true)
  | c :: cs, n, i =>
    if 48 ≤ c.toNat ∧ c.toNat ≤ 57 then
      let n1 := n * 10 + (c.toNat - 48)
      if n1 ≥ 16777215 then (16777215, i, false) else dtoiLoop cs n1 (i + 1)
    else if i = 0 then (0, 0, false) else (n, i, true)

/-- Go `net.dtoi`. -/
def dtoi (s : List Char) : Nat × Nat × Bool := dtoiLoop s 0 0

/-- The loop of Go `netip.parseIPv4Fields` over the text `s[i:]`: `first`
says `i == 0`, `prevDot` says `s[i-1] == '.'`, `fields` holds the first
`pos` fields.  `none` is a parse error. -/
def parseIPv4FieldsLoop : List Char → Bool → Bool → Nat → Nat → Nat → List Nat → Option (List Nat)
  | [], _, _, val, pos, _, fields => if pos < 3 then none else some (fields ++ [val % 256])
  | c :: rest, first, prevDot, val, pos, digLen, fields =>
    if 48 ≤ c.toNat ∧ c.toNat ≤ 57 then
      if digLen = 1 ∧ val = 0 then none
      else
        let val1 := val * 10 + (c.toNat - 48)
        if val1 > 255 then none
        else parseIPv4FieldsLoop rest false false val1 pos (digLen + 1) fields
    else if c = '.' then
      if first = true ∨ rest = [] ∨ prevDot = true then none
      else if pos = 3 then none
      else parseIPv4FieldsLoop rest false true 0 (pos + 1) 0 (fields ++ [val % 256])
    else none

/-- Go `netip.parseIPv4Fields` on a whole text: the four fields. -/
def parseIPv4Fields (s : List Char) : Option (List Nat) :=
  parseIPv4FieldsLoop s true false 0 0 0 []

/-- Go `netip.Addr`, as far as `ParseCIDR` looks at it: the 16-byte form,
whether it is an IPv4 address, and the zone. -/
structure Addr where
  as16 : List Nat
  is4 : Bool
  zone : List Char
deriving DecidableEq, Repr

/-- Go `netip.Addr.BitLen`. -/
def Addr.BitLen (a : Addr) : Nat := if a.is4 then 32 else 128

/-- Go `netip.parseIPv4`. -/
def parseIPv4 (s : List Char) : Option Addr :=
  (parseIPv4Fields s).map (fun f => { as16 := v4InV6Head ++ f, is4 := true, zone := [] })

/-- Whether a character is a hexadecimal digit. -/
def isHex (c : Char) : Bool :=
  (48 ≤ c.toNat ∧ c.toNat ≤ 57) ∨ (97 ≤ c.toNat ∧ c.toNat ≤ 102) ∨ (65 ≤ c.toNat ∧ c.toNat ≤ 70)

/-- The value of a hexadecimal digit. -/
def hexVal (c : Char) : Nat :=
  if c.toNat ≤ 57 then c.toNat - 48 else if 97 ≤ c.toNat then c.toNat - 87 else c.toNat - 55

/-- State of the main loop of `netip.parseIPv6` when it is left: the text
not yet used, the bytes written so far (their number is `i`) and the
position of the ellipsis. -/
structure V6State where
  rest : List Char
  bytes : List Nat
  ellipsis : Option Nat
deriving DecidableEq, Repr

/-- The main loop of Go `netip.parseIPv6` (hex groups separated by colons,
possibly an ellipsis, possibly an embedded IPv4 tail); `none` is a parse
error.  Every pass writes at least two bytes, so nine passes suffice. -/
def parseIPv6Loop : Nat → List Char → List Nat → Option Nat → Option V6State
  | 0, _, _, _ => none
  | fuel + 1, s, bytes, ellipsis =>
    if bytes.length ≥ 16 then some ⟨s, bytes, ellipsis⟩
    else
      let digs := s.takeWhile isHex
      let acc := digs.foldl (fun a c => a * 16 + hexVal c) 0
      if digs.length > 4 then none
      else if digs.length = 0 then none
      else
        match s.drop digs.length with
        | [] => some ⟨[], bytes ++ [acc / 256 % 256, acc % 256], ellipsis⟩
        | c :: rest1 =>
          if c = '.' then
            if ellipsis = none ∧ bytes.length ≠ 12 then none
            else if bytes.length + 4 > 16 then none
            else
              match parseIPv4Fields s with
              | none => none
              | some f => some ⟨[], bytes ++ f, ellipsis⟩
          else if c ≠ ':' then none
          else
            let bytes1 := bytes ++ [acc / 256 % 256, acc % 256]
            match rest1 with
            | [] => none
            | c2 :: rest2 =>
              if c2 = ':' then
                if ellipsis.isSome then none
                else if rest2 = [] then some ⟨[], bytes1, some bytes1.length⟩
                else parseIPv6Loop fuel rest2 bytes1 (some bytes1.length)
              else parseIPv6Loop fuel rest1 bytes1 ellipsis

/-- Go `netip.parseIPv6`. -/
def parseIPv6 (input : List Char) : Option Addr :=
  let s0 := input.takeWhile (fun c => c ≠ '%')
  let hasZone := s0.length < input.length
  let zone := input.drop (s0.length + 1)
  if hasZone ∧ zone = [] then none
  else
    let lead : Bool := match s0 with
      | ':' :: ':' :: _ => true
      | _ => false
    if lead ∧ s0.length = 2 then some { as16 := List.replicate 16 0, is4 := false, zone := zone }
    else
      match parseIPv6Loop 9 (if lead then s0.drop 2 else s0) [] (if lead then some 0 else none) with
      | none => none
      | some st =>
        if st.rest ≠ [] then none
        else if st.bytes.length < 16 then
          match st.ellipsis with
          | none => none
          | some e =>
            some { as16 := st.bytes.take e ++ List.replicate (16 - st.bytes.length) 0 ++ st.bytes.drop e,
                   is4 := false, zone := zone }
        else if st.ellipsis.isSome then none
        else some { as16 := st.bytes, is4 := false, zone := zone }

/-- The scan of Go `netip.ParseAddr`: the first of the characters `.`, `:`
and `%` in the text. -/
def firstMark : List Char → Option Char
  | [] => none
  | c :: cs => if c = '.' ∨ c = ':' ∨ c = '%' then some c else firstMark cs

/-- Go `netip.ParseAddr`. -/
def ParseAddr (s : List Char) : Option Addr :=
  match firstMark s with
  | some c => if c = '.' then parseIPv4 s else if c = ':' then parseIPv6 s else none
  | none => none

/-- Go `net.ParseCIDR`: the address in its 16-byte form and the network;
the error carries the text of Go's `ParseError`. -/
def ParseCIDR (s : String) : Except String (IP × IPNet) :=
  let cs := s.toList
  let addr := cs.takeWhile (fun c => c ≠ '/')
  if addr.length = cs.length then .error ("invalid CIDR address: " ++ s)
  else
    let mask := cs.drop (addr.length + 1)
    match ParseAddr addr with
    | none => .error ("invalid CIDR address: " ++ s)
    | some ipAddr =>
      if ipAddr.zone ≠ [] then .error ("invalid CIDR address: " ++ s)
      else
        let r := dtoi mask
        if r.2.2 = false ∨ r.2.1 ≠ mask.length ∨ r.1 > ipAddr.BitLen then
          .error ("invalid CIDR address: " ++ s)
        else
          let m := CIDRMask r.1 ipAddr.BitLen
          .ok (ipAddr.as16, { IP := IP.Mask ipAddr.as16 m, Mask := m })

/-- Go `net.IPv4(a, b, c, d)`: the address in its 16-byte form. -/
def IPv4 (a b c d : Nat) : IP := v4InV6Head ++ [a, b, c, d]

/-- Go `net.ParseIP`: the 16-byte form of the address the text denotes; the
nil result is `[]`. -/
def ParseIP (s : String) : IP :=
  match ParseAddr s.toList with
  | none => []
  | some addr => if addr.zone ≠ [] then [] else addr.as16

end GoNet

namespace GoStrings

/-- Go `unicode.ToLower` on the characters that matter to `main`: the
ASCII capitals, and the two characters outside ASCII whose lower case is an
ASCII letter (U+0130 gives `i`, U+212A gives `k`).  The lower case of any
other character is not an ASCII character, so leaving it in place does not
change a comparison with an ASCII word. -/
def toLowerChar (c : Char) : Char :=
  if 65 ≤ c.toNat ∧ c.toNat ≤ 90 then Char.ofNat (c.toNat + 32)
  else if c.toNat = 304 then 'i'
  else if c.toNat = 8490 then 'k'
  else c

/-- Go `strings.ToLower`. -/
def ToLower (s : String) : String := String.mk (s.toList.map toLowerChar)

/-- Go `strings.Join`. -/
def Join (elems : List String) (sep : String) : String := sep.intercalate elems

end GoStrings

namespace GoJSON

/-- Four lower-case hexadecimal digits, as in a `\uXXXX` escape. -/
def hex4 (n : Nat) : List Char :=
  [GoNet.hexDigit (n / 4096 % 16), GoNet.hexDigit (n / 256 % 16), GoNet.hexDigit (n / 16 % 16),
    GoNet.hexDigit (n % 16)]

/-- One character of a string inside Go `encoding/json` output with HTML
escaping on (the default of `MarshalIndent`). -/
def escapeChar (c : Char) : List Char :=
  if c = '"' then ['\\', '"']
  else if c = '\\' then ['\\', '\\']
  else if c.toNat = 8 then ['\\', 'b']
  else if c.toNat = 12 then ['\\', 'f']
  else if c.toNat = 10 then ['\\', 'n']
  else if c.toNat = 13 then ['\\', 'r']
  else if c.toNat = 9 then ['\\', 't']
  else if c.toNat < 32 ∨ c = '<' ∨ c = '>' ∨ c = '&' ∨ c.toNat = 8232 ∨ c.toNat = 8233 then
    '\\' :: 'u' :: hex4 c.toNat
  else [c]

/-- A string as a JSON string literal. -/
def quote (s : String) : String := String.mk ('"' :: (s.toList.flatMap escapeChar ++ ['"']))

/-- Go `json.MarshalIndent(map[string]interface\x7b\x7d\x7b"ipAddresses": xs\x7d, "", "  ")`
for a non-nil slice of strings `xs`. -/
def marshalIndentAddresses (xs : List String) : String :=
  match xs with
  | [] => "\x7b\n  \"ipAddresses\": []\n\x7d"
  | _ =>
    "\x7b\n  \"ipAddresses\": [\n" ++
      ",\n".intercalate (xs.map (fun x => "    " ++ quote x)) ++ "\n  ]\n\x7d"

end GoJSON

namespace Subneter

open GoNet

/-- How a function of the program ends: it returns a value, it stops the
process through `log.Fatalln` (message on standard error, exit status 1),
it hits a run-time panic, or its loop is still running when the fuel is
used up. -/
inductive Outcome (α : Type) where
  | ret (v : α)
  | fatal (msg : String)
  | panicked
  | running
deriving DecidableEq, Repr

/-- The loop of `inc` from the last byte towards the first, on the reversed
slice: add one, stop unless the byte wrapped to zero. -/
def incRev : List Nat → List Nat
  | [] => []
  | b :: bs => if (b + 1) % 256 > 0 then (b + 1) % 256 :: bs else (b + 1) % 256 :: incRev bs

/-- `inc` of main.go: the slice after the in-place increment. -/
def inc (ip : IP) : IP := (incRev ip.reverse).reverse

/-- `isExcludedIP` of main.go; `none` is the index-out-of-range panic on an
empty slice. -/
def isExcludedIP (ip : IP) : Option Bool :=
  match ip.getLast? with
  | none => none
  | some b => some (b == 0 || b == 255)

/-- The `for` loop of `getAllIPAddresses`, from the current `ip` with the
strings appended so far; one unit of fuel per evaluation of
`ipNet.Contains(ip)`. -/
def enumLoop (ipNet : IPNet) : Nat → IP → List String → Outcome (List String)
  | 0, _, _ => .running
  | fuel + 1, ip, ips =>
    if ipNet.Contains ip = true then
      match isExcludedIP ip with
      | none => .panicked
      | some true => enumLoop ipNet fuel (inc ip) ips
      | some false => enumLoop ipNet fuel (inc ip) (ips ++ [IP.String ip])
    else .ret ips

/-- `getAllIPAddresses` of main.go. -/
def getAllIPAddresses (fuel : Nat) (subnet : String) : Outcome (List String) :=
  match ParseCIDR subnet with
  | .error err => .fatal err
  | .ok (_, ipNet) => enumLoop ipNet fuel (IP.Mask ipNet.IP ipNet.Mask) []

/-- The loop `lastIP[i] = firstIP[i] | ^ipNet.Mask[i]` of
`getFirstAndLastIP`; `none` is the index-out-of-range panic when the mask
is shorter than the address. -/
def orNotMask : IP → IPMask → Option IP
  | [], _ => some []
  | _ :: _, [] => none
  | a :: as, m :: ms =>
    match orNotMask as ms with
    | none => none
    | some r => some ((a ||| (255 - m)) :: r)

/-- `getFirstAndLastIP` of main.go. -/
def getFirstAndLastIP (subnet : String) : Outcome (String × String) :=
  match ParseCIDR subnet with
  | .error err => .fatal err
  | .ok (ip, ipNet) =>
    let firstIP := IP.Mask ip ipNet.Mask
    match orNotMask firstIP ipNet.Mask with
    | none => .panicked
    | some lastIP =>
      match firstIP.get? 3, lastIP.get? 3 with
      | some f3, some l3 =>
        .ret (IP.String (firstIP.set 3 ((f3 + 1) % 256)),
              IP.String (lastIP.set 3 ((l3 + 255) % 256)))
      | _, _ => .panicked

/-- `printCommaDelimited` of main.go: the text written to standard output. -/
def printCommaDelimited (ipAddresses : List String) : String :=
  GoStrings.Join ipAddresses "," ++ "\n"

/-- `printJSON` of main.go: the text written to standard output
(`MarshalIndent` does not fail on a slice of strings). -/
def printJSON (ipAddresses : List String) : String :=
  GoJSON.marshalIndentAddresses ipAddresses ++ "\n"

/-- How a run of the program ends. -/
inductive Status where
  | exited
  | fatal (msg : String)
  | panicked
  | running
deriving DecidableEq, Repr

/-- What a run of the program does: the text on standard output and how
the run ends. -/
structure Run where
  stdout : String
  status : Status
deriving DecidableEq, Repr

/-- A run that stops with the outcome `o` of a callee that did not return. -/
def Run.stopped {α : Type} (out : String) (o : Outcome α) : Run :=
  match o with
  | .ret _ => ⟨out, .exited⟩
  | .fatal msg => ⟨out, .fatal msg⟩
  | .panicked => ⟨out, .panicked⟩
  | .running => ⟨out, .running⟩

/-- `main` of main.go, after `pflag.Parse`: `subnet` is the first
positional argument, `format` and `verbose` are the flag values. -/
def main (fuel : Nat) (subnet format : String) (verbose : Bool) : Run :=
  let out0 := if verbose then "Subnet: " ++ subnet ++ " Format: " ++ format ++ "\n" else ""
  if format = "range" then
    match getFirstAndLastIP subnet with
    | .ret (start, stop) => ⟨out0 ++ start ++ "-" ++ stop ++ "\n", .exited⟩
    | o => Run.stopped out0 o
  else
    match getAllIPAddresses fuel subnet with
    | .ret ipAddresses =>
      let lower := GoStrings.ToLower format
      if lower = "comma" then ⟨out0 ++ printCommaDelimited ipAddresses, .exited⟩
      else if lower = "json" then ⟨out0 ++ printJSON ipAddresses, .exited⟩
      else if lower = "count" then
        ⟨out0 ++ "Available IPs: " ++ toString ipAddresses.length ++ "\n", .exited⟩
      else ⟨out0 ++ "Invalid output format.\n", .exited⟩
    | o => Run.stopped out0 o

/-- `ipToInt` of main.go, with Go's `int` taken as 64 bits wide, so that
the shifts do not overflow; `none` is the index-out-of-range panic when
`To4` gives nil. -/
def ipToInt (ip : IP) : Option Nat :=
  match IP.To4 ip with
  | some [b0, b1, b2, b3] => some (b0 <<< 24 ||| b1 <<< 16 ||| b2 <<< 8 ||| b3)
  | _ => none

/-- `intToIP` of main.go; `byte(x)` keeps the low eight bits. -/
def intToIP (i : Nat) : IP :=
  IPv4 ((i >>> 24) % 256) ((i >>> 16) % 256) ((i >>> 8) % 256) (i % 256)

/-- `printRange` of main.go (not called by `main`): what it prints and how
it ends. -/
def printRange (ipAddresses : List String) : Run :=
  match ipAddresses.head?, ipAddresses.getLast? with
  | some startIP, some endIP =>
    let start := (IP.To4 (ParseIP startIP)).getD []
    let stop := (IP.To4 (ParseIP endIP)).getD []
    match ipToInt stop with
    | none => ⟨"", .panicked⟩
    | some endInt => ⟨IP.String start ++ "-" ++ IP.String (intToIP endInt) ++ "\n", .exited⟩
  | _, _ => ⟨"", .fatal "No IP addresses to print."⟩

end Subneter

namespace Spec

open GoNet

/-- The 32-bit value of an address given as bytes, most significant first. -/
def toValue (ip : IP) : Nat := ip.foldl (fun acc b => acc * 256 + b) 0

/-- The four bytes of a 32-bit value, most significant first. -/
def ofValue (n : Nat) : IP := [n / 16777216 % 256, n / 65536 % 256, n / 256 % 256, n % 256]

/-- The network address of the specification: base address AND mask, byte
by byte. -/
def networkAddress (base : IP) (mask : IPMask) : IP :=
  List.zipWith (fun a m => a &&& m) base mask

/-- The broadcast address of the specification: network address OR NOT
mask, byte by byte. -/
def broadcastAddress (base : IP) (mask : IPMask) : IP :=
  List.zipWith (fun a m => a ||| (255 - m)) (networkAddress base mask) mask

/-- The dotted-decimal text of four bytes, written with the decimal
numerals of Lean. -/
def dottedDecimal (ip : IP) : String :=
  ".".intercalate (ip.map (fun b => toString b))

/-- The exclusion policy of the specification on a 32-bit value: the last
octet is 0 or 255. -/
def excluded (x : Nat) : Bool := x % 256 == 0 || x % 256 == 255

/-- The text `s` is a valid IPv4 CIDR descriptor with base address
`a.b.c.d` and mask length `P`: the octets and `P` are in range and
`ParseCIDR` accepts `s` with that address and the mask of `P` leading ones. -/
def IsCIDR4 (s : String) (a b c d P : Nat) : Prop :=
  a < 256 ∧ b < 256 ∧ c < 256 ∧ d < 256 ∧ P ≤ 32 ∧
  ParseCIDR s = .ok (v4InV6Head ++ [a, b, c, d],
    { IP := IP.Mask (v4InV6Head ++ [a, b, c, d]) (CIDRMask P 32), Mask := CIDRMask P 32 })

/-- The canonical text of the descriptor `a.b.c.d/P`. -/
def cidrText (a b c d P : Nat) : String :=
  dottedDecimal [a, b, c, d] ++ "/" ++ toString P

/-- Splitting a text at every comma: a text with `n` commas gives `n + 1`
pieces, as Go's `strings.Split(s, ",")` does. -/
def splitCommaChars : List Char → List (List Char)
  | [] => [[]]
  | c :: cs =>
    if c = ',' then [] :: splitCommaChars cs
    else
      match splitCommaChars cs with
      | [] => [[c]]
      | piece :: pieces => (c :: piece) :: pieces

/-- Splitting a string at every comma. -/
def splitAtCommas (s : String) : List String := (splitCommaChars s.toList).map String.mk

/-- The characters an address text is made of: decimal digits, the
hexadecimal letters `a` to `f`, the dot, the colon and the question mark. -/
def addressChar (c : Char) : Bool :=
  decide (c.toNat = 46 ∨ c.toNat = 58 ∨ c.toNat = 63 ∨ (48 ≤ c.toNat ∧ c.toNat ≤ 57) ∨
    (97 ≤ c.toNat ∧ c.toNat ≤ 102))

/-- A decimal digit. -/
def decimalDigit (c : Char) : Bool := decide (48 ≤ c.toNat ∧ c.toNat ≤ 57)

/-- The value of a decimal numeral. -/
def decimalValue (ds : List Char) : Nat := ds.foldl (fun n c => n * 10 + (c.toNat - 48)) 0

/-- The text `ds` is a mask length of at most `bound`: a non-empty decimal
numeral (leading zeros allowed) whose value is at most `bound`. -/
def IsMaskLength (ds : List Char) (bound : Nat) : Prop :=
  ds ≠ [] ∧ (∀ c ∈ ds, decimalDigit c = true) ∧ decimalValue ds ≤ bound

/-- The text has the form `A.B.C.D/N`: four octets in 0..255, each written
as a decimal numeral without leading zeros, separated by dots, then a slash
and a mask length `N` in 0..32.  The definition looks at the characters of
the text only. -/
def IsIPv4Text (s : String) : Prop :=
  ∃ a b c d ds, a < 256 ∧ b < 256 ∧ c < 256 ∧ d < 256 ∧ IsMaskLength ds 32 ∧
    s.toList = (dottedDecimal [a, b, c, d]).toList ++ '/' :: ds

/-- A hexadecimal digit, in either case. -/
def hexChar (c : Char) : Bool :=
  decide ((48 ≤ c.toNat ∧ c.toNat ≤ 57) ∨ (97 ≤ c.toNat ∧ c.toNat ≤ 102) ∨
    (65 ≤ c.toNat ∧ c.toNat ≤ 70))

/-- A group of an IPv6 address text: one to four hexadecimal digits. -/
def IsGroup (g : List Char) : Prop := g ≠ [] ∧ g.length ≤ 4 ∧ ∀ c ∈ g, hexChar c = true

/-- The fields of an IPv6 address text from some field on, with the number
of address bytes they stand for and whether a `::` occurs among them: groups
separated by single colons, at most one `::`, and possibly a dotted-decimal
IPv4 address as the last field. -/
inductive Fields6 : List Char → Nat → Bool → Prop where
  | group (g : List Char) : IsGroup g → Fields6 g 2 false
  | quad (a b c d : Nat) : a < 256 → b < 256 → c < 256 → d < 256 →
      Fields6 (dottedDecimal [a, b, c, d]).toList 4 false
  | colon (g t : List Char) (n : Nat) (e : Bool) : IsGroup g → Fields6 t n e →
      Fields6 (g ++ ':' :: t) (n + 2) e
  | gap (g t : List Char) (n : Nat) : IsGroup g → Fields6 t n false →
      Fields6 (g ++ ':' :: ':' :: t) (n + 2) true
  | gapEnd (g : List Char) : IsGroup g → Fields6 (g ++ [':', ':']) 2 true

/-- The text is an IPv6 address text: fields for exactly 16 bytes without
`::`, or fields for fewer than 16 bytes around one `::` (which may also
stand at the start, or be the whole text). -/
def IsIPv6Addr (t : List Char) : Prop :=
  Fields6 t 16 false ∨ (∃ n, n < 16 ∧ Fields6 t n true) ∨ t = [':', ':'] ∨
    ∃ u n, n < 16 ∧ Fields6 u n false ∧ t = ':' :: ':' :: u

/-- The text has the form of an IPv6 CIDR descriptor: an IPv6 address text,
a slash and a mask length in 0..128. -/
def IsIPv6Text (s : String) : Prop :=
  ∃ t ds, IsIPv6Addr t ∧ IsMaskLength ds 128 ∧ s.toList = t ++ '/' :: ds

end Spec

namespace Subneter

open GoNet Spec

/-! ## Bytes and masks -/

set_option maxRecDepth 100000 in
theorem land_maskByte_small :
    ∀ k < 9, ∀ a < 256, a &&& maskByte k = a / 2 ^ (8 - k) * 2 ^ (8 - k) := by
  decide

set_option maxRecDepth 100000 in
theorem lor_maskByte_small : ∀ k < 9, ∀ a < 256,
    (a / 2 ^ (8 - k) * 2 ^ (8 - k)) ||| (255 - maskByte k)
      = a / 2 ^ (8 - k) * 2 ^ (8 - k) + (2 ^ (8 - k) - 1) := by
  decide

theorem maskByte_ge (k : Nat) (h : 8 ≤ k) : maskByte k = maskByte 8 := by
  simp [maskByte, h]

theorem land_maskByte (k a : Nat) (ha : a < 256) :
    a &&& maskByte k = a / 2 ^ (8 - k) * 2 ^ (8 - k) := by
  by_cases hk : k < 9
  · exact land_maskByte_small k hk a ha
  · have h8 : 8 ≤ k := by omega
    rw [maskByte_ge k h8, land_maskByte_small 8 (by decide) a ha]
    have : 8 - k = 0 := by omega
    simp [this]

theorem lor_maskByte (k a : Nat) (ha : a < 256) :
    (a / 2 ^ (8 - k) * 2 ^ (8 - k)) ||| (255 - maskByte k)
      = a / 2 ^ (8 - k) * 2 ^ (8 - k) + (2 ^ (8 - k) - 1) := by
  by_cases hk : k < 9
  · exact lor_maskByte_small k hk a ha
  · have h8 : 8 ≤ k := by omega
    rw [maskByte_ge k h8]
    have h0 : 8 - k = 0 := by omega
    have := lor_maskByte_small 8 (by decide) a ha
    simpa [h0] using this

theorem CIDRMask_32 (P : Nat) (hP : P ≤ 32) :
    CIDRMask P 32 = [maskByte P, maskByte (P - 8), maskByte (P - 16), maskByte (P - 24)] := by
  have h : ¬ P > 32 := by omega
  simp [CIDRMask, IPv4len, IPv6len, cidrMaskLoop, h, Nat.sub_sub]

theorem ofValue_toValue (a b c d : Nat) (ha : a < 256) (hb : b < 256) (hc : c < 256)
    (hd : d < 256) : ofValue (toValue [a, b, c, d]) = [a, b, c, d] := by
  simp only [toValue, ofValue, List.foldl_cons, List.foldl_nil]
  simp only [List.cons.injEq, and_true]
  refine ⟨?_, ?_, ?_, ?_⟩ <;> omega

theorem toValue_lt (a b c d : Nat) (ha : a < 256) (hb : b < 256) (hc : c < 256)
    (hd : d < 256) : toValue [a, b, c, d] < 2 ^ 32 := by
  simp only [toValue, List.foldl_cons, List.foldl_nil]
  omega

theorem toValue_ofValue (x : Nat) (hx : x < 2 ^ 32) : toValue (ofValue x) = x := by
  simp only [toValue, ofValue, List.foldl_cons, List.foldl_nil]
  omega

theorem networkAddress_ofValue (x P : Nat) (hP : P ≤ 32) :
    networkAddress (ofValue x) (CIDRMask P 32)
      = ofValue (x % 2 ^ 32 / 2 ^ (32 - P) * 2 ^ (32 - P)) := by
  rw [CIDRMask_32 P hP]
  simp only [networkAddress, ofValue, List.zipWith_cons_cons, List.zipWith_nil_right]
  rw [land_maskByte _ _ (Nat.mod_lt _ (by norm_num)), land_maskByte _ _ (Nat.mod_lt _ (by norm_num)),
    land_maskByte _ _ (Nat.mod_lt _ (by norm_num)), land_maskByte _ _ (Nat.mod_lt _ (by norm_num))]
  interval_cases P <;> simp <;> omega

theorem broadcastAddress_ofValue (x P : Nat) (hP : P ≤ 32) :
    broadcastAddress (ofValue x) (CIDRMask P 32)
      = ofValue (x % 2 ^ 32 / 2 ^ (32 - P) * 2 ^ (32 - P) + (2 ^ (32 - P) - 1)) := by
  rw [CIDRMask_32 P hP]
  simp only [broadcastAddress, networkAddress, ofValue, List.zipWith_cons_cons,
    List.zipWith_nil_right]
  rw [land_maskByte _ _ (Nat.mod_lt _ (by norm_num)), land_maskByte _ _ (Nat.mod_lt _ (by norm_num)),
    land_maskByte _ _ (Nat.mod_lt _ (by norm_num)), land_maskByte _ _ (Nat.mod_lt _ (by norm_num))]
  rw [lor_maskByte _ _ (Nat.mod_lt _ (by norm_num)), lor_maskByte _ _ (Nat.mod_lt _ (by norm_num)),
    lor_maskByte _ _ (Nat.mod_lt _ (by norm_num)), lor_maskByte _ _ (Nat.mod_lt _ (by norm_num))]
  interval_cases P <;> simp <;> omega

theorem ofValue_injective (x y : Nat) (hx : x < 2 ^ 32) (hy : y < 2 ^ 32)
    (h : ofValue x = ofValue y) : x = y := by
  rw [← toValue_ofValue x hx, ← toValue_ofValue y hy, h]

theorem block_lt (x P : Nat) (hx : x < 2 ^ 32) :
    x / 2 ^ (32 - P) * 2 ^ (32 - P) < 2 ^ 32 :=
  lt_of_le_of_lt (Nat.div_mul_le_self _ _) hx

theorem sameMasked_ofValue (x y P : Nat) (hx : x < 2 ^ 32) (hy : y < 2 ^ 32) (hP : P ≤ 32) :
    sameMasked (ofValue x) (ofValue y) (CIDRMask P 32) = true
      ↔ x / 2 ^ (32 - P) = y / 2 ^ (32 - P) := by
  have hs : sameMasked (ofValue x) (ofValue y) (CIDRMask P 32) = true
      ↔ networkAddress (ofValue x) (CIDRMask P 32) = networkAddress (ofValue y) (CIDRMask P 32) := by
    rw [CIDRMask_32 P hP]
    simp [sameMasked, networkAddress, ofValue]
  rw [hs, networkAddress_ofValue x P hP, networkAddress_ofValue y P hP, Nat.mod_eq_of_lt hx,
    Nat.mod_eq_of_lt hy]
  have hpos : 0 < 2 ^ (32 - P) := Nat.two_pow_pos _
  constructor
  · intro h
    exact Nat.eq_of_mul_eq_mul_right hpos
      (ofValue_injective _ _ (block_lt x P hx) (block_lt y P hy) h)
  · intro h
    rw [h]

/-! ## The enumeration loop on IPv4 blocks -/

theorem inc_four (a b c d : Nat) : inc [a, b, c, d] =
    if (d + 1) % 256 > 0 then [a, b, c, (d + 1) % 256]
    else if (c + 1) % 256 > 0 then [a, b, (c + 1) % 256, 0]
    else if (b + 1) % 256 > 0 then [a, (b + 1) % 256, 0, 0]
    else [(a + 1) % 256, 0, 0, 0] := by
  simp only [inc, List.reverse_cons, List.reverse_nil, List.nil_append, List.cons_append, incRev]
  split_ifs <;> simp_all

theorem inc_ofValue (x : Nat) : inc (ofValue x) = ofValue ((x % 2 ^ 32 + 1) % 2 ^ 32) := by
  have h32 : (2 : Nat) ^ 32 = 4294967296 := by norm_num
  rw [h32]
  simp only [ofValue, inc_four]
  split_ifs <;> simp only [List.cons.injEq, and_true] <;> refine ⟨?_, ?_, ?_, ?_⟩ <;> omega

theorem isExcludedIP_ofValue (x : Nat) : isExcludedIP (ofValue x) = some (excluded x) := by
  simp [isExcludedIP, ofValue, excluded]

set_option maxRecDepth 1000000 in
theorem ubtoa_eq_toString : ∀ v < 256, ubtoa v = (toString v).toList := by decide

theorem String_eq_dottedDecimal (a b c d : Nat) (ha : a < 256) (hb : b < 256) (hc : c < 256)
    (hd : d < 256) : IP.String [a, b, c, d] = dottedDecimal [a, b, c, d] := by
  have h4 : IP.To4 [a, b, c, d] = some [a, b, c, d] := by simp [IP.To4, IPv4len]
  simp only [IP.String, h4]
  simp only [List.length_cons, List.length_nil, IPv4len, IPv6len]
  simp only [dotted, ubtoa_eq_toString a ha, ubtoa_eq_toString b hb, ubtoa_eq_toString c hc,
    ubtoa_eq_toString d hd, dottedDecimal]
  apply String.ext
  simp [String.intercalate, String.intercalate.go]

theorem Contains_ofValue (nw x P : Nat) (hn : nw < 2 ^ 32) (hx : x < 2 ^ 32) (hP : P ≤ 32) :
    IPNet.Contains ⟨ofValue nw, CIDRMask P 32⟩ (ofValue x) = true
      ↔ nw / 2 ^ (32 - P) = x / 2 ^ (32 - P) := by
  have hl : (CIDRMask P 32).length = 4 := by rw [CIDRMask_32 P hP]; rfl
  have h4 : ∀ y, IP.To4 (ofValue y) = some (ofValue y) := by
    intro y; simp [IP.To4, IPv4len, ofValue]
  have hnm : networkNumberAndMask ⟨ofValue nw, CIDRMask P 32⟩ = (ofValue nw, CIDRMask P 32) := by
    simp only [networkNumberAndMask, h4, hl, IPv4len]
    simp [ofValue]
  simp only [IPNet.Contains, hnm, h4]
  rw [← sameMasked_ofValue nw x P hn hx hP]
  simp [ofValue]

theorem IP_String_ofValue (x : Nat) : IP.String (ofValue x) = dottedDecimal (ofValue x) :=
  String_eq_dottedDecimal _ _ _ _ (Nat.mod_lt _ (by norm_num)) (Nat.mod_lt _ (by norm_num))
    (Nat.mod_lt _ (by norm_num)) (Nat.mod_lt _ (by norm_num))

/-- The values of a block that survive the exclusion policy, in ascending
order: `x, x+1, ..., x+k-1` without those whose last octet is 0 or 255. -/
theorem enumLoop_block (P q : Nat) (hP1 : 1 ≤ P) (hP : P ≤ 32)
    (hq : q * 2 ^ (32 - P) + 2 ^ (32 - P) ≤ 2 ^ 32) :
    ∀ (k x fuel : Nat) (acc : List String), q * 2 ^ (32 - P) ≤ x →
      x + k = q * 2 ^ (32 - P) + 2 ^ (32 - P) → k < fuel →
      enumLoop ⟨ofValue (q * 2 ^ (32 - P)), CIDRMask P 32⟩ fuel (ofValue (x % 2 ^ 32)) acc
        = .ret (acc ++ ((List.range' x k).filter (fun v => !excluded v)).map
            (fun v => dottedDecimal (ofValue v))) := by
  have hs : 0 < 2 ^ (32 - P) := Nat.two_pow_pos _
  have hs2 : 2 ^ (32 - P) * 2 ≤ 2 ^ 32 := by
    rw [← Nat.pow_succ]
    exact Nat.pow_le_pow_right (by norm_num) (by omega)
  have hnw : q * 2 ^ (32 - P) < 2 ^ 32 := by omega
  have hdiv : q * 2 ^ (32 - P) / 2 ^ (32 - P) = q := Nat.mul_div_cancel _ hs
  intro k
  induction k with
  | zero =>
    intro x fuel acc hx hk hf
    obtain ⟨f, rfl⟩ : ∃ f, fuel = f + 1 := ⟨fuel - 1, by omega⟩
    have hxlt : x % 2 ^ 32 < 2 ^ 32 := Nat.mod_lt _ (by norm_num)
    have hnot : ¬ (q * 2 ^ (32 - P) / 2 ^ (32 - P) = x % 2 ^ 32 / 2 ^ (32 - P)) := by
      rw [hdiv]
      rcases Nat.lt_or_ge x (2 ^ 32) with hlt | hge
      · rw [Nat.mod_eq_of_lt hlt]
        have : x / 2 ^ (32 - P) = q + 1 := by
          have hx' : x = (q + 1) * 2 ^ (32 - P) := by rw [Nat.add_mul]; omega
          rw [hx', Nat.mul_div_cancel _ hs]
        omega
      · have hx' : x = 2 ^ 32 := by omega
        rw [hx', Nat.mod_self, Nat.zero_div]
        intro hq0
        rw [hq0] at hq hx hk
        omega
    have hc : IPNet.Contains ⟨ofValue (q * 2 ^ (32 - P)), CIDRMask P 32⟩ (ofValue (x % 2 ^ 32))
        ≠ true := by
      rw [Ne, Contains_ofValue _ _ _ hnw hxlt hP]
      exact hnot
    rw [enumLoop, if_neg hc]
    simp
  | succ k ih =>
    intro x fuel acc hx hk hf
    obtain ⟨f, rfl⟩ : ∃ f, fuel = f + 1 := ⟨fuel - 1, by omega⟩
    have hxlt : x < 2 ^ 32 := by omega
    have hin : q * 2 ^ (32 - P) / 2 ^ (32 - P) = x / 2 ^ (32 - P) := by
      rw [hdiv]
      symm
      apply Nat.div_eq_of_lt_le
      · exact hx
      · rw [Nat.succ_mul]; omega
    have hc : IPNet.Contains ⟨ofValue (q * 2 ^ (32 - P)), CIDRMask P 32⟩ (ofValue x) = true := by
      rw [Contains_ofValue _ _ _ hnw hxlt hP]
      exact hin
    have hstep : (x % 2 ^ 32 + 1) % 2 ^ 32 = (x + 1) % 2 ^ 32 := by
      rw [Nat.mod_eq_of_lt hxlt]
    rw [Nat.mod_eq_of_lt hxlt]
    rw [enumLoop]
    simp only [hc, if_true, isExcludedIP_ofValue, inc_ofValue, hstep]
    rw [List.range'_succ]
    by_cases he : excluded x = true
    · simp only [he]
      rw [ih (x + 1) f acc (by omega) (by omega) (by omega)]
      simp [List.filter_cons, he]
    · have he' : excluded x = false := by simpa using he
      simp only [he']
      rw [ih (x + 1) f _ (by omega) (by omega) (by omega)]
      simp [List.filter_cons, he', IP_String_ofValue]

/-! ## From a parsed IPv4 descriptor to the enumeration -/

theorem CIDRMask_32_length (P : Nat) (hP : P ≤ 32) : (CIDRMask P 32).length = 4 := by
  rw [CIDRMask_32 P hP]; rfl

theorem Mask_v4InV6 (a b c d P : Nat) (hP : P ≤ 32) :
    IP.Mask (v4InV6Head ++ [a, b, c, d]) (CIDRMask P 32)
      = networkAddress [a, b, c, d] (CIDRMask P 32) := by
  rw [CIDRMask_32 P hP]
  simp [IP.Mask, v4InV6Head, IPv4len, IPv6len, networkAddress]

theorem Mask_four (a b c d P : Nat) (hP : P ≤ 32) :
    IP.Mask [a, b, c, d] (CIDRMask P 32) = networkAddress [a, b, c, d] (CIDRMask P 32) := by
  rw [CIDRMask_32 P hP]
  simp [IP.Mask, IPv4len, IPv6len, networkAddress]

/-- The network address of `a.b.c.d/P` as a value: the base rounded down to
a multiple of the block size. -/
theorem networkAddress_four (a b c d P : Nat) (ha : a < 256) (hb : b < 256) (hc : c < 256)
    (hd : d < 256) (hP : P ≤ 32) :
    networkAddress [a, b, c, d] (CIDRMask P 32)
      = ofValue (toValue [a, b, c, d] / 2 ^ (32 - P) * 2 ^ (32 - P)) := by
  have h := networkAddress_ofValue (toValue [a, b, c, d]) P hP
  rw [ofValue_toValue a b c d ha hb hc hd, Nat.mod_eq_of_lt (toValue_lt a b c d ha hb hc hd)] at h
  exact h

theorem broadcastAddress_four (a b c d P : Nat) (ha : a < 256) (hb : b < 256) (hc : c < 256)
    (hd : d < 256) (hP : P ≤ 32) :
    broadcastAddress [a, b, c, d] (CIDRMask P 32)
      = ofValue (toValue [a, b, c, d] / 2 ^ (32 - P) * 2 ^ (32 - P) + (2 ^ (32 - P) - 1)) := by
  have h := broadcastAddress_ofValue (toValue [a, b, c, d]) P hP
  rw [ofValue_toValue a b c d ha hb hc hd, Nat.mod_eq_of_lt (toValue_lt a b c d ha hb hc hd)] at h
  exact h

/-- A block fits in the 32-bit space. -/
theorem block_end_le (x P : Nat) (hx : x < 2 ^ 32) (hP : P ≤ 32) :
    x / 2 ^ (32 - P) * 2 ^ (32 - P) + 2 ^ (32 - P) ≤ 2 ^ 32 := by
  have hs : 0 < 2 ^ (32 - P) := Nat.two_pow_pos _
  have hd : 2 ^ 32 = 2 ^ P * 2 ^ (32 - P) := by
    rw [← Nat.pow_add]; congr 1; omega
  have hlt : x / 2 ^ (32 - P) < 2 ^ P := by
    rw [Nat.div_lt_iff_lt_mul hs, ← hd]; exact hx
  calc x / 2 ^ (32 - P) * 2 ^ (32 - P) + 2 ^ (32 - P)
      = (x / 2 ^ (32 - P) + 1) * 2 ^ (32 - P) := by rw [Nat.add_mul, Nat.one_mul]
    _ ≤ 2 ^ P * 2 ^ (32 - P) := Nat.mul_le_mul_right _ hlt
    _ = 2 ^ 32 := hd.symm

/-- The list `getAllIPAddresses` returns on a valid IPv4 descriptor with a
mask length of at least 1, once the fuel covers the block. -/
theorem getAllIPAddresses_block (s : String) (a b c d P : Nat) (h : IsCIDR4 s a b c d P)
    (hP1 : 1 ≤ P) (fuel : Nat) (hf : 2 ^ (32 - P) < fuel) :
    getAllIPAddresses fuel s = .ret
      (((List.range' (toValue [a, b, c, d] / 2 ^ (32 - P) * 2 ^ (32 - P)) (2 ^ (32 - P))).filter
        (fun v => !excluded v)).map (fun v => dottedDecimal (ofValue v))) := by
  obtain ⟨ha, hb, hc, hd, hP, hparse⟩ := h
  have hbase := toValue_lt a b c d ha hb hc hd
  have hend := block_end_le _ P hbase hP
  have hnwlt : toValue [a, b, c, d] / 2 ^ (32 - P) * 2 ^ (32 - P) < 2 ^ 32 := block_lt _ P hbase
  simp only [getAllIPAddresses, hparse]
  rw [Mask_v4InV6 a b c d P hP, networkAddress_four a b c d P ha hb hc hd hP]
  have hre : IP.Mask (ofValue (toValue [a, b, c, d] / 2 ^ (32 - P) * 2 ^ (32 - P))) (CIDRMask P 32)
      = ofValue (toValue [a, b, c, d] / 2 ^ (32 - P) * 2 ^ (32 - P)) := by
    rw [show ofValue (toValue [a, b, c, d] / 2 ^ (32 - P) * 2 ^ (32 - P))
      = [_, _, _, _] from rfl, Mask_four _ _ _ _ P hP]
    rw [show ([_, _, _, _] : IP) = ofValue (toValue [a, b, c, d] / 2 ^ (32 - P) * 2 ^ (32 - P))
      from rfl, networkAddress_ofValue _ P hP, Nat.mod_eq_of_lt hnwlt,
      Nat.mul_div_cancel _ (Nat.two_pow_pos _)]
  rw [hre]
  have := enumLoop_block P (toValue [a, b, c, d] / 2 ^ (32 - P)) hP1 hP hend (2 ^ (32 - P))
    (toValue [a, b, c, d] / 2 ^ (32 - P) * 2 ^ (32 - P)) fuel [] (le_refl _) rfl hf
  rw [Nat.mod_eq_of_lt hnwlt] at this
  simpa using this

/-! ## The enumerated list (C1) -/

theorem isCIDR4_example_30 : IsCIDR4 "10.0.0.0/30" 10 0 0 0 30 :=
  ⟨by decide, by decide, by decide, by decide, by decide, by rfl⟩

/-- C1: on a valid IPv4 descriptor `a.b.c.d/P` with `1 ≤ P ≤ 32`,
`getAllIPAddresses` returns (as soon as the fuel covers the block) the
dotted-decimal texts of a list of 32-bit values that is strictly ascending,
hence without repetition, and holds exactly the values `x` with
network address ≤ `x` ≤ broadcast address whose last octet is neither 0 nor
255, where the network address is base AND mask and the broadcast address is
network OR NOT mask. -/
theorem getAllIPAddresses_exact (s : String) (a b c d P : Nat) (h : IsCIDR4 s a b c d P)
    (hP1 : 1 ≤ P) (fuel : Nat) (hf : 2 ^ (32 - P) < fuel) :
    ∃ vals : List Nat,
      getAllIPAddresses fuel s = .ret (vals.map (fun x => dottedDecimal (ofValue x))) ∧
      List.Sorted (fun x y => x < y) vals ∧
      ∀ x, x ∈ vals ↔
        (toValue (networkAddress [a, b, c, d] (CIDRMask P 32)) ≤ x ∧
          x ≤ toValue (broadcastAddress [a, b, c, d] (CIDRMask P 32)) ∧
          x % 256 ≠ 0 ∧ x % 256 ≠ 255) := by
  have hret := getAllIPAddresses_block s a b c d P h hP1 fuel hf
  obtain ⟨ha, hb, hc, hd, hP, -⟩ := h
  have hbase := toValue_lt a b c d ha hb hc hd
  have hend := block_end_le _ P hbase hP
  have hs : 0 < 2 ^ (32 - P) := Nat.two_pow_pos _
  refine ⟨_, hret, ?_, ?_⟩
  · exact List.Pairwise.filter _ (List.pairwise_lt_range' _ _)
  · intro x
    rw [networkAddress_four a b c d P ha hb hc hd hP, broadcastAddress_four a b c d P ha hb hc hd hP,
      toValue_ofValue _ (block_lt _ P hbase), toValue_ofValue _ (by omega)]
    simp only [List.mem_filter, List.mem_range'_1, excluded, Bool.not_eq_true', Bool.or_eq_false_iff,
      beq_eq_false_iff_ne, ne_eq]
    constructor
    · rintro ⟨⟨h1, h2⟩, h3, h4⟩
      exact ⟨h1, by omega, h3, h4⟩
    · rintro ⟨h1, h2, h3, h4⟩
      exact ⟨⟨h1, by omega⟩, h3, h4⟩

theorem getAllIPAddresses_exact_witness :
    IsCIDR4 "10.0.0.0/30" 10 0 0 0 30 ∧ ∃ vals : List Nat,
      getAllIPAddresses 5 "10.0.0.0/30" = .ret (vals.map (fun x => dottedDecimal (ofValue x))) ∧
      List.Sorted (fun x y => x < y) vals ∧
      ∀ x, x ∈ vals ↔
        (toValue (networkAddress [10, 0, 0, 0] (CIDRMask 30 32)) ≤ x ∧
          x ≤ toValue (broadcastAddress [10, 0, 0, 0] (CIDRMask 30 32)) ∧
          x % 256 ≠ 0 ∧ x % 256 ≠ 255) :=
  ⟨isCIDR4_example_30,
    getAllIPAddresses_exact "10.0.0.0/30" 10 0 0 0 30 isCIDR4_example_30 (by decide) 5 (by decide)⟩

/-! ## The loop on a /0 block (C2, C5) -/

theorem enumLoop_slash0 (nw : Nat) (hn : nw < 2 ^ 32) :
    ∀ (fuel x : Nat) (acc : List String), x < 2 ^ 32 →
      enumLoop ⟨ofValue nw, CIDRMask 0 32⟩ fuel (ofValue x) acc = .running := by
  intro fuel
  induction fuel with
  | zero => intro x acc _; rfl
  | succ f ih =>
    intro x acc hx
    have hc : IPNet.Contains ⟨ofValue nw, CIDRMask 0 32⟩ (ofValue x) = true := by
      rw [Contains_ofValue nw x 0 hn hx (by omega)]
      rw [Nat.div_eq_of_lt hn, Nat.div_eq_of_lt hx]
    have hlt : (x % 2 ^ 32 + 1) % 2 ^ 32 < 2 ^ 32 := Nat.mod_lt _ (by norm_num)
    rw [enumLoop]
    simp only [hc, if_true, isExcludedIP_ofValue, inc_ofValue]
    cases excluded x
    · exact ih _ _ hlt
    · exact ih _ _ hlt

/-- On a valid IPv4 descriptor with mask length 0 the loop of
`getAllIPAddresses` is still running whatever fuel it is given. -/
theorem getAllIPAddresses_slash0 (s : String) (a b c d : Nat) (h : IsCIDR4 s a b c d 0)
    (fuel : Nat) : getAllIPAddresses fuel s = .running := by
  obtain ⟨ha, hb, hc, hd, hP, hparse⟩ := h
  have hbase := toValue_lt a b c d ha hb hc hd
  simp only [getAllIPAddresses, hparse]
  rw [Mask_v4InV6 a b c d 0 hP, networkAddress_four a b c d 0 ha hb hc hd hP]
  have hre : ∀ y, IP.Mask (ofValue y) (CIDRMask 0 32) = ofValue (y % 2 ^ 32 / 2 ^ (32 - 0) * 2 ^ (32 - 0)) := by
    intro y
    rw [show ofValue y = [_, _, _, _] from rfl, Mask_four _ _ _ _ 0 hP]
    exact networkAddress_ofValue y 0 hP
  rw [hre]
  exact enumLoop_slash0 _ (block_lt _ 0 hbase) fuel _ [] (block_lt _ 0 (Nat.mod_lt _ (by norm_num)))

theorem isCIDR4_example_0 : IsCIDR4 "0.0.0.0/0" 0 0 0 0 0 :=
  ⟨by decide, by decide, by decide, by decide, by decide, by rfl⟩

/-- C2: on the valid descriptor `0.0.0.0/0` the loop of `getAllIPAddresses`
never ends: whatever the fuel, it is still running. -/
theorem getAllIPAddresses_zero_prefix_running (fuel : Nat) :
    getAllIPAddresses fuel "0.0.0.0/0" = .running :=
  getAllIPAddresses_slash0 "0.0.0.0/0" 0 0 0 0 isCIDR4_example_0 fuel

/-- C5: on a valid IPv4 descriptor with mask length 0, `getAllIPAddresses`
returns no list, whatever the fuel, so there is no list of
`2 ^ 32 - E` elements. -/
theorem getAllIPAddresses_zero_prefix_no_list (s : String) (a b c d : Nat)
    (h : IsCIDR4 s a b c d 0) (fuel : Nat) (l : List String) :
    getAllIPAddresses fuel s ≠ .ret l := by
  rw [getAllIPAddresses_slash0 s a b c d h fuel]
  intro hne
  cases hne

theorem getAllIPAddresses_zero_prefix_no_list_witness :
    IsCIDR4 "0.0.0.0/0" 0 0 0 0 0 ∧ getAllIPAddresses 1000 "0.0.0.0/0" ≠ .ret [] :=
  ⟨isCIDR4_example_0,
    getAllIPAddresses_zero_prefix_no_list "0.0.0.0/0" 0 0 0 0 isCIDR4_example_0 1000 []⟩

/-! ## The range pair (C3, C7) -/

theorem orNotMask_four (n0 n1 n2 n3 m0 m1 m2 m3 : Nat) :
    orNotMask [n0, n1, n2, n3] [m0, m1, m2, m3]
      = some [n0 ||| (255 - m0), n1 ||| (255 - m1), n2 ||| (255 - m2), n3 ||| (255 - m3)] := by
  simp [orNotMask]

theorem isCIDR4_example_24 : IsCIDR4 "10.0.0.77/24" 10 0 0 77 24 :=
  ⟨by decide, by decide, by decide, by decide, by decide, by rfl⟩

/-- C3: on a valid IPv4 descriptor, `getFirstAndLastIP` returns the text of
the network address (base AND mask) with its last octet replaced by
(last octet + 1) mod 256 and the text of the broadcast address (network OR
NOT mask) with its last octet replaced by (last octet - 1) mod 256, the
three leading octets of each unchanged, and the range format prints the
first text, a hyphen and the second text on one line. -/
theorem getFirstAndLastIP_octets (s : String) (a b c d P : Nat) (h : IsCIDR4 s a b c d P) :
    ∃ n0 n1 n2 n3 b0 b1 b2 b3 : Nat,
      networkAddress [a, b, c, d] (CIDRMask P 32) = [n0, n1, n2, n3] ∧
      broadcastAddress [a, b, c, d] (CIDRMask P 32) = [b0, b1, b2, b3] ∧
      getFirstAndLastIP s = .ret (dottedDecimal [n0, n1, n2, (n3 + 1) % 256],
        dottedDecimal [b0, b1, b2, (b3 + 256 - 1) % 256]) ∧
      ∀ fuel, main fuel s "range" false =
        ⟨dottedDecimal [n0, n1, n2, (n3 + 1) % 256] ++ "-" ++
          dottedDecimal [b0, b1, b2, (b3 + 256 - 1) % 256] ++ "\n", .exited⟩ := by
  obtain ⟨ha, hb, hc, hd, hP, hparse⟩ := h
  have hnw := networkAddress_four a b c d P ha hb hc hd hP
  have hbc := broadcastAddress_four a b c d P ha hb hc hd hP
  have hlt : ∀ y, y % 256 < 256 := fun y => Nat.mod_lt _ (by norm_num)
  have hget : getFirstAndLastIP s = .ret
      (dottedDecimal [(ofValue (toValue [a, b, c, d] / 2 ^ (32 - P) * 2 ^ (32 - P))).getD 0 0,
          (ofValue (toValue [a, b, c, d] / 2 ^ (32 - P) * 2 ^ (32 - P))).getD 1 0,
          (ofValue (toValue [a, b, c, d] / 2 ^ (32 - P) * 2 ^ (32 - P))).getD 2 0,
          ((ofValue (toValue [a, b, c, d] / 2 ^ (32 - P) * 2 ^ (32 - P))).getD 3 0 + 1) % 256],
        dottedDecimal
          [(ofValue (toValue [a, b, c, d] / 2 ^ (32 - P) * 2 ^ (32 - P) + (2 ^ (32 - P) - 1))).getD 0 0,
          (ofValue (toValue [a, b, c, d] / 2 ^ (32 - P) * 2 ^ (32 - P) + (2 ^ (32 - P) - 1))).getD 1 0,
          (ofValue (toValue [a, b, c, d] / 2 ^ (32 - P) * 2 ^ (32 - P) + (2 ^ (32 - P) - 1))).getD 2 0,
          ((ofValue (toValue [a, b, c, d] / 2 ^ (32 - P) * 2 ^ (32 - P) + (2 ^ (32 - P) - 1))).getD 3 0
            + 256 - 1) % 256]) := by
    have hor : orNotMask (networkAddress [a, b, c, d] (CIDRMask P 32)) (CIDRMask P 32)
        = some (broadcastAddress [a, b, c, d] (CIDRMask P 32)) := by
      rw [CIDRMask_32 P hP]
      simp [orNotMask, broadcastAddress, networkAddress]
    simp only [getFirstAndLastIP, hparse]
    rw [Mask_v4InV6 a b c d P hP]
    simp only [hor]
    rw [hnw, hbc]
    simp only [ofValue, List.get?_cons_succ, List.get?_cons_zero, List.set_cons_succ,
      List.set_cons_zero, List.getD_cons_succ, List.getD_cons_zero]
    rw [String_eq_dottedDecimal _ _ _ _ (hlt _) (hlt _) (hlt _) (hlt _),
      String_eq_dottedDecimal _ _ _ _ (hlt _) (hlt _) (hlt _) (hlt _)]
    rfl
  refine ⟨_, _, _, _, _, _, _, _, ?_, ?_, hget, ?_⟩
  · rw [hnw]; rfl
  · rw [hbc]; rfl
  · intro fuel
    simp only [main, hget]
    simp

theorem getFirstAndLastIP_octets_witness :
    IsCIDR4 "10.0.0.77/24" 10 0 0 77 24 ∧
    ∃ n0 n1 n2 n3 b0 b1 b2 b3 : Nat,
      networkAddress [10, 0, 0, 77] (CIDRMask 24 32) = [n0, n1, n2, n3] ∧
      broadcastAddress [10, 0, 0, 77] (CIDRMask 24 32) = [b0, b1, b2, b3] ∧
      getFirstAndLastIP "10.0.0.77/24" = .ret (dottedDecimal [n0, n1, n2, (n3 + 1) % 256],
        dottedDecimal [b0, b1, b2, (b3 + 256 - 1) % 256]) ∧
      ∀ fuel, main fuel "10.0.0.77/24" "range" false =
        ⟨dottedDecimal [n0, n1, n2, (n3 + 1) % 256] ++ "-" ++
          dottedDecimal [b0, b1, b2, (b3 + 256 - 1) % 256] ++ "\n", .exited⟩ :=
  ⟨isCIDR4_example_24, getFirstAndLastIP_octets "10.0.0.77/24" 10 0 0 77 24 isCIDR4_example_24⟩

/-- C7 on the code: for `10.0.0.0/32` the network address and the broadcast
address are both `10.0.0.0`, and `getFirstAndLastIP` returns `10.0.0.1` and
`10.0.0.255`, where the claim has `9.255.255.255`: `lastIP[3]--` wraps the
last octet from 0 to 255 and borrows nothing from the octets in front,
although the comment above it says that 1 is subtracted from the address. -/
theorem getFirstAndLastIP_host_route :
    networkAddress [10, 0, 0, 0] (CIDRMask 32 32) = [10, 0, 0, 0] ∧
    broadcastAddress [10, 0, 0, 0] (CIDRMask 32 32) = [10, 0, 0, 0] ∧
    getFirstAndLastIP "10.0.0.0/32" = .ret ("10.0.0.1", "10.0.0.255") := by
  refine ⟨by decide, by decide, by rfl⟩

/-- For `10.0.0.0/32` the second component returned by `getFirstAndLastIP`
is not `9.255.255.255`, the address one below the broadcast address. -/
theorem getFirstAndLastIP_host_route_no_borrow :
    getFirstAndLastIP "10.0.0.0/32" ≠ .ret ("10.0.0.1", "9.255.255.255") := by
  decide

/-! ## Format selection in `main` (C9, C10) -/

/-- C9 on the code: with the subnet `10.0.0.0/30`, the format `RANGE` makes
`main` print the line `Invalid output format.`, while the format `range`
makes it print the range `10.0.0.1-10.0.0.2`: the comparison with `range`
is made before the format is put in lower case. -/
theorem main_upper_case_range :
    main 5 "10.0.0.0/30" "RANGE" false = ⟨"Invalid output format.\n", .exited⟩ ∧
    main 5 "10.0.0.0/30" "range" false = ⟨"10.0.0.1-10.0.0.2\n", .exited⟩ ∧
    GoStrings.ToLower "RANGE" = GoStrings.ToLower "range" := by
  refine ⟨by decide, by decide, by decide⟩

/-- C10 fails as stated: with the unknown format `xml` and the argument
`not-a-subnet`, `main` prints nothing on standard output and ends with the
fatal parse error, while with the subnet `10.0.0.0/30` it prints the line
`Invalid output format.`; the outcome depends on the subnet argument. -/
theorem main_unknown_format_parses_first :
    main 5 "not-a-subnet" "xml" false = ⟨"", .fatal "invalid CIDR address: not-a-subnet"⟩ ∧
    main 5 "10.0.0.0/30" "xml" false = ⟨"Invalid output format.\n", .exited⟩ := by
  refine ⟨by decide, by decide⟩

theorem ToLower_ne_range (format : String) (h : GoStrings.ToLower format ≠ "range") :
    format ≠ "range" := by
  intro hf
  apply h
  rw [hf]
  decide

/-- C10, as the code has it: for a format that in lower case is none of
`comma`, `json`, `count` and `range`, `main` first runs `getAllIPAddresses`
on the subnet argument; when that call returns a list, `main` prints the
line `Invalid output format.` and nothing else, and when it does not return
(fatal parse error, or a loop that does not end) the run ends the way the
call ends, with nothing printed. -/
theorem main_unknown_format (fuel : Nat) (subnet format : String)
    (h1 : GoStrings.ToLower format ≠ "comma") (h2 : GoStrings.ToLower format ≠ "json")
    (h3 : GoStrings.ToLower format ≠ "count") (h4 : GoStrings.ToLower format ≠ "range") :
    main fuel subnet format false =
      match getAllIPAddresses fuel subnet with
      | .ret _ => ⟨"Invalid output format.\n", .exited⟩
      | .fatal msg => ⟨"", .fatal msg⟩
      | .panicked => ⟨"", .panicked⟩
      | .running => ⟨"", .running⟩ := by
  have h5 := ToLower_ne_range format h4
  simp only [main, h5, if_false]
  cases hg : getAllIPAddresses fuel subnet with
  | ret v => simp [h1, h2, h3]
  | fatal msg => simp [Run.stopped]
  | panicked => simp [Run.stopped]
  | running => simp [Run.stopped]

theorem main_unknown_format_witness :
    GoStrings.ToLower "xml" ≠ "comma" ∧ GoStrings.ToLower "xml" ≠ "json" ∧
    GoStrings.ToLower "xml" ≠ "count" ∧ GoStrings.ToLower "xml" ≠ "range" ∧
    main 5 "10.0.0.0/30" "xml" false =
      match getAllIPAddresses 5 "10.0.0.0/30" with
      | .ret _ => ⟨"Invalid output format.\n", .exited⟩
      | .fatal msg => ⟨"", .fatal msg⟩
      | .panicked => ⟨"", .panicked⟩
      | .running => ⟨"", .running⟩ :=
  ⟨by decide, by decide, by decide, by decide,
    main_unknown_format 5 "10.0.0.0/30" "xml" (by decide) (by decide) (by decide) (by decide)⟩

/-! ## What `ParseCIDR` accepts -/

theorem parseIPv4FieldsLoop_shape :
    ∀ (cs : List Char) (first prevDot : Bool) (val pos digLen : Nat) (fields r : List Nat),
      parseIPv4FieldsLoop cs first prevDot val pos digLen fields = some r →
      fields.length = pos → pos ≤ 3 → (∀ x ∈ fields, x < 256) →
      r.length = 4 ∧ ∀ x ∈ r, x < 256 := by
  intro cs
  induction cs with
  | nil =>
    intro first prevDot val pos digLen fields r h hlen hpos hall
    simp only [parseIPv4FieldsLoop] at h
    split at h
    · cases h
    · injection h with h
      subst h
      constructor
      · simp; omega
      · intro x hx
        rcases List.mem_append.mp hx with hx | hx
        · exact hall x hx
        · simp at hx; omega
  | cons c rest ih =>
    intro first prevDot val pos digLen fields r h hlen hpos hall
    simp only [parseIPv4FieldsLoop] at h
    split at h
    · split at h
      · cases h
      · split at h
        · cases h
        · exact ih _ _ _ _ _ _ _ h hlen hpos hall
    · split at h
      · split at h
        · cases h
        · split at h
          · cases h
          · refine ih _ _ _ _ _ _ _ h (by simp; omega) (by omega) ?_
            intro x hx
            rcases List.mem_append.mp hx with hx | hx
            · exact hall x hx
            · simp at hx; omega
      · cases h

theorem parseIPv4Fields_shape (cs : List Char) (r : List Nat) (h : parseIPv4Fields cs = some r) :
    ∃ a b c d, r = [a, b, c, d] ∧ a < 256 ∧ b < 256 ∧ c < 256 ∧ d < 256 := by
  obtain ⟨hl, hall⟩ := parseIPv4FieldsLoop_shape cs true false 0 0 0 [] r h rfl (by omega)
    (by intro x hx; cases hx)
  match r, hl, hall with
  | [a, b, c, d], _, hall =>
    exact ⟨a, b, c, d, rfl, hall a (by simp), hall b (by simp), hall c (by simp), hall d (by simp)⟩

theorem firstMark_mem : ∀ (cs : List Char) (c : Char), firstMark cs = some c → c ∈ cs := by
  intro cs
  induction cs with
  | nil => intro c h; cases h
  | cons x xs ih =>
    intro c h
    simp only [firstMark] at h
    split at h
    · injection h with h; subst h; simp
    · exact List.mem_cons_of_mem _ (ih c h)

/-- Every text without a colon that `ParseCIDR` accepts is a valid IPv4
descriptor: four octets below 256 and a mask length of at most 32. -/
theorem ParseCIDR_no_colon (s : String) (r : IP × IPNet) (h : ParseCIDR s = .ok r)
    (hc : ':' ∉ s.toList) : ∃ a b c d P, IsCIDR4 s a b c d P := by
  simp only [ParseCIDR] at h
  split at h
  · cases h
  · rename_i hlen
    split at h
    · cases h
    · rename_i ipAddr hpa
      split at h
      · cases h
      · rename_i hzone
        split at h
        · cases h
        · rename_i hchk
          simp only [ParseAddr] at hpa
          split at hpa
          · rename_i m hm
            split at hpa
            · rename_i hdot
              simp only [parseIPv4, Option.map_eq_some'] at hpa
              obtain ⟨f, hf, hip⟩ := hpa
              obtain ⟨a, b, c, d, rfl, ha, hb, hc', hd⟩ := parseIPv4Fields_shape _ f hf
              subst hip
              subst hdot
              simp only [Addr.BitLen, if_true] at h hchk
              refine ⟨a, b, c, d, (dtoi (List.drop ((List.takeWhile (fun c => decide (c ≠ '/')) s.toList).length + 1) s.toList)).1,
                ha, hb, hc', hd, ?_, ?_⟩
              · simp only [not_or] at hchk
                omega
              · simp only [ParseCIDR, ParseAddr, hm, parseIPv4, hf, Option.map_some', Addr.BitLen,
                  if_true]
                rw [if_neg hlen, if_neg (by simp), if_neg hchk]
            · split at hpa
              · exfalso
                rename_i hcol
                subst hcol
                have hmem := firstMark_mem _ _ hm
                exact hc (List.takeWhile_subset _ hmem)
              · cases hpa
          · cases hpa

/-! ## Arguments that are accepted or not -/

theorem ParseCIDR_error_text (s : String) :
    (∃ r, ParseCIDR s = .ok r) ∨ ParseCIDR s = .error ("invalid CIDR address: " ++ s) := by
  simp only [ParseCIDR]
  split
  · exact Or.inr rfl
  · split
    · exact Or.inr rfl
    · split
      · exact Or.inr rfl
      · split
        · exact Or.inr rfl
        · exact Or.inl ⟨_, rfl⟩

/-- C8 fails as stated: the argument `::1/128` is not of the form
`A.B.C.D/N`, yet `ParseCIDR` accepts it as an IPv6 descriptor, and both
`getAllIPAddresses` and `getFirstAndLastIP` return a result for it. -/
theorem ipv6_descriptor_is_accepted :
    getAllIPAddresses 5 "::1/128" = .ret ["::1"] ∧
    getFirstAndLastIP "::1/128" = .ret ("0:1::1", "0:ff::1") ∧
    main 5 "::1/128" "comma" false = ⟨"::1\n", .exited⟩ := by
  refine ⟨by decide, by decide, by decide⟩

/-! ## The canonical text of a descriptor is accepted -/

set_option maxRecDepth 100000 in
theorem parseIPv4FieldsLoop_ubtoa (v : Nat) (hv : v < 256) (rest : List Char)
    (first prevDot : Bool) (pos : Nat) (fields : List Nat) :
    parseIPv4FieldsLoop (ubtoa v ++ rest) first prevDot 0 pos 0 fields
      = parseIPv4FieldsLoop rest false false v pos (ubtoa v).length fields := by
  interval_cases v <;> rfl

theorem parseIPv4FieldsLoop_dot (c : Char) (rest : List Char) (val pos digLen : Nat)
    (fields : List Nat) (hpos : pos < 3) :
    parseIPv4FieldsLoop ('.' :: c :: rest) false false val pos digLen fields
      = parseIPv4FieldsLoop (c :: rest) false true 0 (pos + 1) 0 (fields ++ [val % 256]) := by
  have h3 : pos ≠ 3 := by omega
  rw [parseIPv4FieldsLoop]
  simp [h3]

set_option maxRecDepth 100000 in
theorem ubtoa_cons : ∀ v < 256, ∃ c cs, ubtoa v = c :: cs := by
  intro v hv
  interval_cases v <;> exact ⟨_, _, rfl⟩

theorem parseIPv4Fields_dotted (a b c d : Nat) (ha : a < 256) (hb : b < 256) (hc : c < 256)
    (hd : d < 256) : parseIPv4Fields (dotted a b c d) = some [a, b, c, d] := by
  obtain ⟨cb, csb, hcb⟩ := ubtoa_cons b hb
  obtain ⟨cc, csc, hcc⟩ := ubtoa_cons c hc
  obtain ⟨cd, csd, hcd⟩ := ubtoa_cons d hd
  have e1 : dotted a b c d = ubtoa a ++ ('.' :: cb :: (csb ++ '.' :: (ubtoa c ++ '.' :: ubtoa d))) := by
    simp [dotted, hcb]
  have e2 : cb :: (csb ++ '.' :: (ubtoa c ++ '.' :: ubtoa d))
      = ubtoa b ++ ('.' :: cc :: (csc ++ '.' :: ubtoa d)) := by
    simp [hcb, hcc]
  have e3 : cc :: (csc ++ '.' :: ubtoa d) = ubtoa c ++ ('.' :: cd :: csd) := by
    simp [hcc, hcd]
  have e4 : cd :: csd = ubtoa d ++ [] := by simp [hcd]
  rw [parseIPv4Fields, e1, parseIPv4FieldsLoop_ubtoa a ha,
    parseIPv4FieldsLoop_dot _ _ _ _ _ _ (by omega), e2, parseIPv4FieldsLoop_ubtoa b hb,
    parseIPv4FieldsLoop_dot _ _ _ _ _ _ (by omega), e3, parseIPv4FieldsLoop_ubtoa c hc,
    parseIPv4FieldsLoop_dot _ _ _ _ _ _ (by omega), e4, parseIPv4FieldsLoop_ubtoa d hd]
  simp only [parseIPv4FieldsLoop, List.nil_append, List.cons_append]
  simp [Nat.mod_eq_of_lt ha, Nat.mod_eq_of_lt hb, Nat.mod_eq_of_lt hc, Nat.mod_eq_of_lt hd]

theorem toList_dottedDecimal (a b c d : Nat) (ha : a < 256) (hb : b < 256) (hc : c < 256)
    (hd : d < 256) : (dottedDecimal [a, b, c, d]).toList = dotted a b c d := by
  have h := String_eq_dottedDecimal a b c d ha hb hc hd
  have h4 : IP.To4 [a, b, c, d] = some [a, b, c, d] := by simp [IP.To4, IPv4len]
  rw [← h]
  simp only [IP.String, h4]
  simp [IPv4len, IPv6len]

/-- The dotted-decimal text determines the four octets. -/
theorem dottedDecimal_injective (a b c d a1 b1 c1 d1 : Nat) (ha : a < 256) (hb : b < 256)
    (hc : c < 256) (hd : d < 256) (ha1 : a1 < 256) (hb1 : b1 < 256) (hc1 : c1 < 256)
    (hd1 : d1 < 256) (h : dottedDecimal [a, b, c, d] = dottedDecimal [a1, b1, c1, d1]) :
    [a, b, c, d] = [a1, b1, c1, d1] := by
  have h1 := parseIPv4Fields_dotted a b c d ha hb hc hd
  have h2 := parseIPv4Fields_dotted a1 b1 c1 d1 ha1 hb1 hc1 hd1
  rw [← toList_dottedDecimal a b c d ha hb hc hd, h,
    toList_dottedDecimal a1 b1 c1 d1 ha1 hb1 hc1 hd1, h2] at h1
  injection h1 with h1
  exact h1.symm

theorem dottedDecimal_ofValue_injective (x y : Nat) (hx : x < 2 ^ 32) (hy : y < 2 ^ 32)
    (h : dottedDecimal (ofValue x) = dottedDecimal (ofValue y)) : x = y := by
  have hlt : ∀ z, z % 256 < 256 := fun z => Nat.mod_lt _ (by norm_num)
  exact ofValue_injective x y hx hy
    (dottedDecimal_injective _ _ _ _ _ _ _ _ (hlt _) (hlt _) (hlt _) (hlt _) (hlt _) (hlt _)
      (hlt _) (hlt _) h)

set_option maxRecDepth 100000 in
theorem firstMark_ubtoa (v : Nat) (hv : v < 256) (rest : List Char) :
    firstMark (ubtoa v ++ '.' :: rest) = some '.' := by
  interval_cases v <;> rfl

set_option maxRecDepth 100000 in
theorem ubtoa_all_digits : ∀ v < 256, (ubtoa v).all (fun c => decide (c ≠ '/')) = true := by
  decide

theorem dotted_no_slash (a b c d : Nat) (ha : a < 256) (hb : b < 256) (hc : c < 256)
    (hd : d < 256) : ∀ x ∈ dotted a b c d, decide (x ≠ '/') = true := by
  have h := fun v hv => List.all_eq_true.mp (ubtoa_all_digits v hv)
  intro x hx
  simp only [dotted, List.mem_append, List.mem_cons] at hx
  rcases hx with hx | rfl | hx | rfl | hx | rfl | hx
  · exact h a ha x hx
  · decide
  · exact h b hb x hx
  · decide
  · exact h c hc x hx
  · decide
  · exact h d hd x hx

set_option maxRecDepth 100000 in
theorem dtoi_toString : ∀ P < 33, dtoi (toString P).toList = (P, (toString P).toList.length, true) := by
  decide

/-- The canonical text `a.b.c.d/P` of a descriptor with octets below 256
and `P ≤ 32` is a valid IPv4 CIDR descriptor of that address and length. -/
theorem IsCIDR4_cidrText (a b c d P : Nat) (ha : a < 256) (hb : b < 256) (hc : c < 256)
    (hd : d < 256) (hP : P ≤ 32) : IsCIDR4 (cidrText a b c d P) a b c d P := by
  refine ⟨ha, hb, hc, hd, hP, ?_⟩
  have htl : (cidrText a b c d P).toList = dotted a b c d ++ '/' :: (toString P).toList := by
    simp only [cidrText, String.toList, String.data_append]
    have := toList_dottedDecimal a b c d ha hb hc hd
    simp only [String.toList] at this
    rw [this]
    simp
  have htw : List.takeWhile (fun c => decide (c ≠ '/')) (dotted a b c d ++ '/' :: (toString P).toList)
      = dotted a b c d := by
    rw [List.takeWhile_append_of_pos (dotted_no_slash a b c d ha hb hc hd)]
    simp
  have hmark : firstMark (dotted a b c d) = some '.' := by
    simp only [dotted]
    exact firstMark_ubtoa a ha _
  have hdrop : List.drop ((dotted a b c d).length + 1) (dotted a b c d ++ '/' :: (toString P).toList)
      = (toString P).toList := by
    rw [show dotted a b c d ++ '/' :: (toString P).toList
      = (dotted a b c d ++ ['/']) ++ (toString P).toList by simp]
    rw [List.drop_append_of_le_length (by simp)]
    simp
  simp only [ParseCIDR, htl, htw, hdrop, ParseAddr, hmark, parseIPv4,
    parseIPv4Fields_dotted a b c d ha hb hc hd, Option.map_some', Addr.BitLen,
    dtoi_toString P (by omega), if_true]
  rw [if_neg (by simp), if_neg (by simp), if_neg (by simp; omega)]

/-! ## Membership in the enumerated list (C4, C6) -/

theorem mem_enumerated (nw n x : Nat) (hend : nw + n ≤ 2 ^ 32) (hx : x < 2 ^ 32) :
    dottedDecimal (ofValue x) ∈
        ((List.range' nw n).filter (fun v => !excluded v)).map (fun v => dottedDecimal (ofValue v))
      ↔ nw ≤ x ∧ x < nw + n ∧ excluded x = false := by
  simp only [List.mem_map, List.mem_filter, List.mem_range'_1, Bool.not_eq_true']
  constructor
  · rintro ⟨v, ⟨⟨h1, h2⟩, h3⟩, h4⟩
    have hv : v = x := dottedDecimal_ofValue_injective v x (by omega) hx h4
    subst hv
    exact ⟨h1, h2, h3⟩
  · rintro ⟨h1, h2, h3⟩
    exact ⟨x, ⟨⟨h1, h2⟩, h3⟩, rfl⟩

set_option maxRecDepth 100000 in
theorem filter_range_256 :
    (List.range 256).filter (fun k => !excluded k) = List.range' 1 254 := by
  decide

theorem isCIDR4_example_10_24 : IsCIDR4 "10.0.0.0/24" 10 0 0 0 24 :=
  ⟨by decide, by decide, by decide, by decide, by decide, by rfl⟩

/-- C4: on a valid descriptor `a.b.c.d/24`, `getAllIPAddresses` returns
exactly the 254 texts `a.b.c.1`, `a.b.c.2`, ..., `a.b.c.254` in that order;
the list holds neither `a.b.c.0` nor `a.b.c.255`. -/
theorem getAllIPAddresses_slash24 (s : String) (a b c d : Nat) (h : IsCIDR4 s a b c d 24)
    (fuel : Nat) (hf : 256 < fuel) :
    getAllIPAddresses fuel s = .ret ((List.range' 1 254).map (fun k => dottedDecimal [a, b, c, k])) ∧
    ((List.range' 1 254).map (fun k => dottedDecimal [a, b, c, k])).length = 254 ∧
    dottedDecimal [a, b, c, 0] ∉ (List.range' 1 254).map (fun k => dottedDecimal [a, b, c, k]) ∧
    dottedDecimal [a, b, c, 255] ∉ (List.range' 1 254).map (fun k => dottedDecimal [a, b, c, k]) := by
  have hret := getAllIPAddresses_block s a b c d 24 h (by omega) fuel (by simpa using hf)
  obtain ⟨ha, hb, hc, hd, -, -⟩ := h
  have hnot : ∀ j, j = 0 ∨ j = 255 →
      dottedDecimal [a, b, c, j] ∉ (List.range' 1 254).map (fun k => dottedDecimal [a, b, c, k]) := by
    intro j hj hmem
    obtain ⟨k, hk, hkj⟩ := List.mem_map.mp hmem
    rw [List.mem_range'_1] at hk
    have := dottedDecimal_injective a b c k a b c j ha hb hc (by omega) ha hb hc (by omega) hkj
    simp only [List.cons.injEq, and_true, true_and] at this
    omega
  refine ⟨?_, by simp, hnot 0 (Or.inl rfl), hnot 255 (Or.inr rfl)⟩
  rw [hret]
  congr 1
  have h256 : (2 : Nat) ^ (32 - 24) = 256 := by norm_num
  rw [h256, List.range'_eq_map_range, List.filter_map]
  have hfun : ((fun v => !excluded v) ∘ fun x => toValue [a, b, c, d] / 256 * 256 + x)
      = fun k => !excluded k := by
    funext k
    simp only [Function.comp, excluded]
    have : (toValue [a, b, c, d] / 256 * 256 + k) % 256 = k % 256 := by omega
    rw [this]
  rw [hfun, filter_range_256, List.map_map]
  apply List.map_congr_left
  intro k hk
  rw [List.mem_range'_1] at hk
  simp only [Function.comp, toValue, ofValue, List.foldl_cons, List.foldl_nil]
  congr 1
  simp only [List.cons.injEq, and_true]
  refine ⟨?_, ?_, ?_, ?_⟩ <;> omega

theorem getAllIPAddresses_slash24_witness :
    IsCIDR4 "10.0.0.0/24" 10 0 0 0 24 ∧
    (getAllIPAddresses 300 "10.0.0.0/24"
        = .ret ((List.range' 1 254).map (fun k => dottedDecimal [10, 0, 0, k])) ∧
      ((List.range' 1 254).map (fun k => dottedDecimal [10, 0, 0, k])).length = 254 ∧
      dottedDecimal [10, 0, 0, 0] ∉ (List.range' 1 254).map (fun k => dottedDecimal [10, 0, 0, k]) ∧
      dottedDecimal [10, 0, 0, 255] ∉
        (List.range' 1 254).map (fun k => dottedDecimal [10, 0, 0, k])) :=
  ⟨isCIDR4_example_10_24,
    getAllIPAddresses_slash24 "10.0.0.0/24" 10 0 0 0 isCIDR4_example_10_24 300 (by decide)⟩

/-- C6 fails as stated: for `10.0.0.0/30` the broadcast address is
`10.0.0.3` and the list returned by `getAllIPAddresses` contains it; for
`10.0.0.128/25` the network address is `10.0.0.128` and it is the first
element of the list. -/
theorem broadcast_address_is_listed :
    getAllIPAddresses 5 "10.0.0.0/30" = .ret ["10.0.0.1", "10.0.0.2", "10.0.0.3"] ∧
    dottedDecimal (broadcastAddress [10, 0, 0, 0] (CIDRMask 30 32)) = "10.0.0.3" ∧
    (∃ l, getAllIPAddresses 200 "10.0.0.128/25" = .ret ("10.0.0.128" :: l)) ∧
    dottedDecimal (networkAddress [10, 0, 0, 128] (CIDRMask 25 32)) = "10.0.0.128" := by
  refine ⟨by decide, by decide, ?_, by decide⟩
  have h : IsCIDR4 "10.0.0.128/25" 10 0 0 128 25 :=
    ⟨by decide, by decide, by decide, by decide, by decide, by rfl⟩
  rw [getAllIPAddresses_block "10.0.0.128/25" 10 0 0 128 25 h (by decide) 200 (by decide)]
  have hr : List.range' (toValue [10, 0, 0, 128] / 2 ^ (32 - 25) * 2 ^ (32 - 25)) (2 ^ (32 - 25))
      = 167772288 :: List.range' 167772289 127 := by
    decide
  rw [hr, List.filter_cons_of_pos (by decide), List.map_cons,
    show dottedDecimal (ofValue 167772288) = "10.0.0.128" by decide]
  exact ⟨_, rfl⟩

/-- C6, as the code has it: on a valid IPv4 descriptor with
`1 ≤ P ≤ 30`, `getAllIPAddresses` returns a list that holds the text of the
network address exactly when the last octet of that address is not 0, and
the text of the broadcast address exactly when the last octet of that
address is not 255; for `P ≤ 24` it holds neither of the two. -/
theorem network_and_broadcast_membership (s : String) (a b c d P : Nat)
    (h : IsCIDR4 s a b c d P) (hP1 : 1 ≤ P) (hP30 : P ≤ 30) (fuel : Nat)
    (hf : 2 ^ (32 - P) < fuel) :
    ∃ l, getAllIPAddresses fuel s = .ret l ∧
      (dottedDecimal (networkAddress [a, b, c, d] (CIDRMask P 32)) ∈ l ↔
        toValue (networkAddress [a, b, c, d] (CIDRMask P 32)) % 256 ≠ 0) ∧
      (dottedDecimal (broadcastAddress [a, b, c, d] (CIDRMask P 32)) ∈ l ↔
        toValue (broadcastAddress [a, b, c, d] (CIDRMask P 32)) % 256 ≠ 255) ∧
      (P ≤ 24 → dottedDecimal (networkAddress [a, b, c, d] (CIDRMask P 32)) ∉ l ∧
        dottedDecimal (broadcastAddress [a, b, c, d] (CIDRMask P 32)) ∉ l) := by
  have hret := getAllIPAddresses_block s a b c d P h hP1 fuel hf
  obtain ⟨ha, hb, hc, hd, hP, -⟩ := h
  have hbase := toValue_lt a b c d ha hb hc hd
  have hend := block_end_le _ P hbase hP
  have hs : 0 < 2 ^ (32 - P) := Nat.two_pow_pos _
  have hnwlt := block_lt (toValue [a, b, c, d]) P hbase
  -- the block size is a multiple of 4, and of 256 when `P ≤ 24`
  have h4 : ∃ t, 2 ^ (32 - P) = 4 * t := ⟨2 ^ (30 - P), by
    rw [show 32 - P = 2 + (30 - P) by omega, Nat.pow_add]⟩
  have h256 : P ≤ 24 → ∃ t, 2 ^ (32 - P) = 256 * t := fun h24 => ⟨2 ^ (24 - P), by
    rw [show 32 - P = 8 + (24 - P) by omega, Nat.pow_add]⟩
  obtain ⟨t, ht⟩ := h4
  have hmul4 : toValue [a, b, c, d] / 2 ^ (32 - P) * 2 ^ (32 - P)
      = 4 * (toValue [a, b, c, d] / 2 ^ (32 - P) * t) := by
    rw [ht]; ring
  refine ⟨_, hret, ?_, ?_, ?_⟩
  · rw [networkAddress_four a b c d P ha hb hc hd hP, toValue_ofValue _ hnwlt,
      mem_enumerated _ _ _ hend hnwlt]
    simp only [excluded, Bool.or_eq_false_iff, beq_eq_false_iff_ne, ne_eq]
    constructor
    · rintro ⟨-, -, h0, -⟩
      exact h0
    · intro h0
      exact ⟨le_refl _, by omega, h0, by omega⟩
  · rw [broadcastAddress_four a b c d P ha hb hc hd hP, toValue_ofValue _ (by omega),
      mem_enumerated _ _ _ hend (by omega)]
    simp only [excluded, Bool.or_eq_false_iff, beq_eq_false_iff_ne, ne_eq]
    constructor
    · rintro ⟨-, -, -, h255⟩
      exact h255
    · intro h255
      exact ⟨by omega, by omega, by omega, h255⟩
  · intro h24
    obtain ⟨u, hu⟩ := h256 h24
    have hmul : toValue [a, b, c, d] / 2 ^ (32 - P) * 2 ^ (32 - P)
        = 256 * (toValue [a, b, c, d] / 2 ^ (32 - P) * u) := by
      rw [hu]; ring
    constructor
    · rw [networkAddress_four a b c d P ha hb hc hd hP, mem_enumerated _ _ _ hend hnwlt]
      simp only [excluded, Bool.or_eq_false_iff, beq_eq_false_iff_ne, ne_eq]
      rintro ⟨-, -, h0, -⟩
      omega
    · rw [broadcastAddress_four a b c d P ha hb hc hd hP, mem_enumerated _ _ _ hend (by omega)]
      simp only [excluded, Bool.or_eq_false_iff, beq_eq_false_iff_ne, ne_eq]
      rintro ⟨-, -, -, h255⟩
      omega

theorem network_and_broadcast_membership_witness :
    IsCIDR4 "10.0.0.77/24" 10 0 0 77 24 ∧
    ∃ l, getAllIPAddresses 300 "10.0.0.77/24" = .ret l ∧
      (dottedDecimal (networkAddress [10, 0, 0, 77] (CIDRMask 24 32)) ∈ l ↔
        toValue (networkAddress [10, 0, 0, 77] (CIDRMask 24 32)) % 256 ≠ 0) ∧
      (dottedDecimal (broadcastAddress [10, 0, 0, 77] (CIDRMask 24 32)) ∈ l ↔
        toValue (broadcastAddress [10, 0, 0, 77] (CIDRMask 24 32)) % 256 ≠ 255) ∧
      (24 ≤ 24 → dottedDecimal (networkAddress [10, 0, 0, 77] (CIDRMask 24 32)) ∉ l ∧
        dottedDecimal (broadcastAddress [10, 0, 0, 77] (CIDRMask 24 32)) ∉ l) :=
  ⟨isCIDR4_example_24,
    network_and_broadcast_membership "10.0.0.77/24" 10 0 0 77 24 isCIDR4_example_24
      (by decide) (by decide) 300 (by decide)⟩

/-! ## The number of enumerated addresses -/

/-- On a valid IPv4 descriptor with `1 ≤ P ≤ 32` the returned list has
`2 ^ (32 - P) - E` elements, `E` being the number of addresses of the block
whose last octet is 0 or 255. -/
theorem getAllIPAddresses_length (s : String) (a b c d P : Nat) (h : IsCIDR4 s a b c d P)
    (hP1 : 1 ≤ P) (fuel : Nat) (hf : 2 ^ (32 - P) < fuel) :
    ∃ l, getAllIPAddresses fuel s = .ret l ∧
      l.length = 2 ^ (32 - P) -
        ((List.range' (toValue (networkAddress [a, b, c, d] (CIDRMask P 32))) (2 ^ (32 - P))).filter
          excluded).length := by
  have hret := getAllIPAddresses_block s a b c d P h hP1 fuel hf
  obtain ⟨ha, hb, hc, hd, hP, -⟩ := h
  refine ⟨_, hret, ?_⟩
  rw [networkAddress_four a b c d P ha hb hc hd hP,
    toValue_ofValue _ (block_lt _ P (toValue_lt a b c d ha hb hc hd)), List.length_map]
  have hsplit := @List.length_eq_length_filter_add _
    (List.range' (toValue [a, b, c, d] / 2 ^ (32 - P) * 2 ^ (32 - P)) (2 ^ (32 - P))) excluded
  rw [List.length_range'] at hsplit
  omega

/-! ## The count format (C11) -/

/-- C11 fails as stated: for `10.0.0.0/30` the count format prints the line
`Available IPs: 3`, a label followed by the integer, not the integer alone. -/
theorem count_prints_a_label :
    main 5 "10.0.0.0/30" "count" false = ⟨"Available IPs: 3\n", .exited⟩ ∧
    (main 5 "10.0.0.0/30" "count" false).stdout ≠ "3\n" ∧
    main 5 "10.0.0.0/30" "comma" false = ⟨"10.0.0.1,10.0.0.2,10.0.0.3\n", .exited⟩ := by
  refine ⟨by decide, by decide, by decide⟩

/-- C11, as the code has it: whenever `getAllIPAddresses` returns a list
for the subnet argument, the count format prints the line
`Available IPs: N`, where `N` is the decimal text of the length of that
list, and nothing else; the comma format prints the elements of the same
list joined by commas. -/
theorem count_is_length (fuel : Nat) (subnet : String) (ips : List String)
    (h : getAllIPAddresses fuel subnet = .ret ips) :
    main fuel subnet "count" false
      = ⟨"Available IPs: " ++ toString ips.length ++ "\n", .exited⟩ ∧
    main fuel subnet "comma" false = ⟨GoStrings.Join ips "," ++ "\n", .exited⟩ := by
  have hc : GoStrings.ToLower "count" = "count" := by decide
  have hm : GoStrings.ToLower "comma" = "comma" := by decide
  constructor
  · simp only [main, h, hc]
    simp
  · simp only [main, h, hm]
    simp [printCommaDelimited]

theorem count_is_length_witness :
    getAllIPAddresses 5 "10.0.0.0/30" = .ret ["10.0.0.1", "10.0.0.2", "10.0.0.3"] ∧
    (main 5 "10.0.0.0/30" "count" false
      = ⟨"Available IPs: " ++ toString ["10.0.0.1", "10.0.0.2", "10.0.0.3"].length ++ "\n",
          .exited⟩ ∧
    main 5 "10.0.0.0/30" "comma" false
      = ⟨GoStrings.Join ["10.0.0.1", "10.0.0.2", "10.0.0.3"] "," ++ "\n", .exited⟩) :=
  ⟨by decide, count_is_length 5 "10.0.0.0/30" ["10.0.0.1", "10.0.0.2", "10.0.0.3"] (by decide)⟩

/-! ## `inc` as the successor on 32-bit values (C15) -/

/-- C15: on a 4-byte address with octets below 256, `inc` gives the
big-endian bytes of `(value + 1) mod 2^32`, the value being
`ip[0]*2^24 + ip[1]*2^16 + ip[2]*2^8 + ip[3]`; the carry runs through all
four octets, and `255.255.255.255` becomes `0.0.0.0`. -/
theorem inc_is_successor (a b c d : Nat) (ha : a < 256) (hb : b < 256) (hc : c < 256)
    (hd : d < 256) :
    toValue [a, b, c, d] = a * 2 ^ 24 + b * 2 ^ 16 + c * 2 ^ 8 + d ∧
    inc [a, b, c, d] = ofValue ((toValue [a, b, c, d] + 1) % 2 ^ 32) ∧
    toValue (inc [a, b, c, d]) = (toValue [a, b, c, d] + 1) % 2 ^ 32 ∧
    inc [255, 255, 255, 255] = [0, 0, 0, 0] := by
  have hlt := toValue_lt a b c d ha hb hc hd
  have hinc : inc [a, b, c, d] = ofValue ((toValue [a, b, c, d] + 1) % 2 ^ 32) := by
    have h := inc_ofValue (toValue [a, b, c, d])
    rw [ofValue_toValue a b c d ha hb hc hd, Nat.mod_eq_of_lt hlt] at h
    exact h
  refine ⟨?_, hinc, ?_, by decide⟩
  · simp only [toValue, List.foldl_cons, List.foldl_nil]
    ring
  · rw [hinc, toValue_ofValue _ (Nat.mod_lt _ (by norm_num))]

theorem inc_is_successor_witness :
    toValue [10, 0, 255, 255] = 10 * 2 ^ 24 + 0 * 2 ^ 16 + 255 * 2 ^ 8 + 255 ∧
    inc [10, 0, 255, 255] = ofValue ((toValue [10, 0, 255, 255] + 1) % 2 ^ 32) ∧
    toValue (inc [10, 0, 255, 255]) = (toValue [10, 0, 255, 255] + 1) % 2 ^ 32 ∧
    inc [255, 255, 255, 255] = [0, 0, 0, 0] :=
  inc_is_successor 10 0 255 255 (by decide) (by decide) (by decide) (by decide)

/-! ## The range pair as 32-bit values -/

/-- The pair `getFirstAndLastIP` returns on a valid IPv4 descriptor, as
values: the network address `nw` and the broadcast address `bc` with the
last octet moved by one modulo 256 and the upper 24 bits kept. -/
theorem getFirstAndLastIP_value (s : String) (a b c d P : Nat) (h : IsCIDR4 s a b c d P) :
    getFirstAndLastIP s = .ret
      (dottedDecimal (ofValue (toValue [a, b, c, d] / 2 ^ (32 - P) * 2 ^ (32 - P) / 256 * 256
          + (toValue [a, b, c, d] / 2 ^ (32 - P) * 2 ^ (32 - P) % 256 + 1) % 256)),
        dottedDecimal (ofValue
          ((toValue [a, b, c, d] / 2 ^ (32 - P) * 2 ^ (32 - P) + (2 ^ (32 - P) - 1)) / 256 * 256
          + ((toValue [a, b, c, d] / 2 ^ (32 - P) * 2 ^ (32 - P) + (2 ^ (32 - P) - 1)) % 256
              + 255) % 256))) := by
  obtain ⟨ha, hb, hc, hd, hP, hparse⟩ := h
  have hnw := networkAddress_four a b c d P ha hb hc hd hP
  have hbc := broadcastAddress_four a b c d P ha hb hc hd hP
  have hlt : ∀ y, y % 256 < 256 := fun y => Nat.mod_lt _ (by norm_num)
  have hor : orNotMask (networkAddress [a, b, c, d] (CIDRMask P 32)) (CIDRMask P 32)
      = some (broadcastAddress [a, b, c, d] (CIDRMask P 32)) := by
    rw [CIDRMask_32 P hP]
    simp [orNotMask, broadcastAddress, networkAddress]
  have hbase := toValue_lt a b c d ha hb hc hd
  have hend := block_end_le _ P hbase hP
  have hs : 0 < 2 ^ (32 - P) := Nat.two_pow_pos _
  generalize toValue [a, b, c, d] / 2 ^ (32 - P) * 2 ^ (32 - P) = nw at hnw hbc hend ⊢
  generalize 2 ^ (32 - P) = size at hbc hend hs ⊢
  have h32 : (2 : Nat) ^ 32 = 4294967296 := by norm_num
  rw [h32] at hend
  simp only [getFirstAndLastIP, hparse]
  rw [Mask_v4InV6 a b c d P hP]
  simp only [hor]
  rw [hnw, hbc]
  simp only [ofValue, List.get?_cons_succ, List.get?_cons_zero, List.set_cons_succ,
    List.set_cons_zero]
  rw [String_eq_dottedDecimal _ _ _ _ (hlt _) (hlt _) (hlt _) (hlt _),
    String_eq_dottedDecimal _ _ _ _ (hlt _) (hlt _) (hlt _) (hlt _)]
  have e1 : ∀ x : Nat, [x / 16777216 % 256, x / 65536 % 256, x / 256 % 256, (x % 256 + 1) % 256]
      = ofValue (x / 256 * 256 + (x % 256 + 1) % 256) := by
    intro x
    simp only [ofValue, List.cons.injEq, and_true]
    refine ⟨?_, ?_, ?_, ?_⟩ <;> omega
  have e2 : ∀ x : Nat, [x / 16777216 % 256, x / 65536 % 256, x / 256 % 256, (x % 256 + 255) % 256]
      = ofValue (x / 256 * 256 + (x % 256 + 255) % 256) := by
    intro x
    simp only [ofValue, List.cons.injEq, and_true]
    refine ⟨?_, ?_, ?_, ?_⟩ <;> omega
  rw [e1, e2]
  simp only [ofValue]

/-! ## Host bits of the base address (C19) -/

/-- C19: two valid IPv4 descriptors with the same mask length whose base
addresses agree after AND with the mask give the same outcome of
`getAllIPAddresses` for every fuel, which for a mask length of at least 1
and fuel covering the block is one and the same returned list, and they
give the same returned pair from `getFirstAndLastIP`. -/
theorem host_bits_do_not_matter (s1 s2 : String) (a1 b1 c1 d1 a2 b2 c2 d2 P : Nat)
    (h1 : IsCIDR4 s1 a1 b1 c1 d1 P) (h2 : IsCIDR4 s2 a2 b2 c2 d2 P)
    (hnet : networkAddress [a1, b1, c1, d1] (CIDRMask P 32)
      = networkAddress [a2, b2, c2, d2] (CIDRMask P 32)) :
    (∀ fuel, getAllIPAddresses fuel s1 = getAllIPAddresses fuel s2) ∧
    (1 ≤ P → ∀ fuel, 2 ^ (32 - P) < fuel →
      ∃ l, getAllIPAddresses fuel s1 = .ret l ∧ getAllIPAddresses fuel s2 = .ret l) ∧
    (∃ pair, getFirstAndLastIP s1 = .ret pair ∧ getFirstAndLastIP s2 = .ret pair) := by
  have hblock := getAllIPAddresses_block s1 a1 b1 c1 d1 P h1
  have hpair := getFirstAndLastIP_value s1 a1 b1 c1 d1 P h1
  obtain ⟨-, -, -, -, hP, hp1⟩ := h1
  obtain ⟨-, -, -, -, -, hp2⟩ := h2
  have hall : ∀ fuel, getAllIPAddresses fuel s1 = getAllIPAddresses fuel s2 := by
    intro fuel
    simp only [getAllIPAddresses, hp1, hp2]
    rw [Mask_v4InV6 a1 b1 c1 d1 P hP, Mask_v4InV6 a2 b2 c2 d2 P hP, hnet]
  have hfl : getFirstAndLastIP s1 = getFirstAndLastIP s2 := by
    simp only [getFirstAndLastIP, hp1, hp2]
    rw [Mask_v4InV6 a1 b1 c1 d1 P hP, Mask_v4InV6 a2 b2 c2 d2 P hP, hnet]
  refine ⟨hall, ?_, ?_⟩
  · intro hP1 fuel hf
    exact ⟨_, hblock hP1 fuel hf, by rw [← hall fuel]; exact hblock hP1 fuel hf⟩
  · exact ⟨_, hpair, by rw [← hfl]; exact hpair⟩

theorem isCIDR4_example_192_77 : IsCIDR4 "192.168.1.77/24" 192 168 1 77 24 :=
  ⟨by decide, by decide, by decide, by decide, by decide, by rfl⟩

theorem isCIDR4_example_192_0 : IsCIDR4 "192.168.1.0/24" 192 168 1 0 24 :=
  ⟨by decide, by decide, by decide, by decide, by decide, by rfl⟩

theorem host_bits_do_not_matter_witness :
    IsCIDR4 "192.168.1.77/24" 192 168 1 77 24 ∧ IsCIDR4 "192.168.1.0/24" 192 168 1 0 24 ∧
    networkAddress [192, 168, 1, 77] (CIDRMask 24 32)
      = networkAddress [192, 168, 1, 0] (CIDRMask 24 32) ∧
    (∀ fuel, getAllIPAddresses fuel "192.168.1.77/24" = getAllIPAddresses fuel "192.168.1.0/24") ∧
    (1 ≤ 24 → ∀ fuel, 2 ^ (32 - 24) < fuel →
      ∃ l, getAllIPAddresses fuel "192.168.1.77/24" = .ret l ∧
        getAllIPAddresses fuel "192.168.1.0/24" = .ret l) ∧
    (∃ pair, getFirstAndLastIP "192.168.1.77/24" = .ret pair ∧
      getFirstAndLastIP "192.168.1.0/24" = .ret pair) :=
  ⟨isCIDR4_example_192_77, isCIDR4_example_192_0, by decide,
    host_bits_do_not_matter "192.168.1.77/24" "192.168.1.0/24" 192 168 1 77 192 168 1 0 24
      isCIDR4_example_192_77 isCIDR4_example_192_0 (by decide)⟩

/-! ## Order of the range pair (C13) and agreement with carrying arithmetic (C17) -/

/-- Arithmetic of the range pair: for a block of size `2 ^ (32 - P)` that
starts at the multiple `nw` of its size, the last octet of `nw` is even and
that of the last address is odd when `P ≤ 31`, and they are a multiple of 4
and 3 modulo 4 when `P ≤ 30`. -/
theorem block_parity (x P : Nat) (hP : P ≤ 32) :
    (P ≤ 31 → ∃ k t, x / 2 ^ (32 - P) * 2 ^ (32 - P) = 2 * k ∧ 2 ^ (32 - P) = 2 * t ∧ 0 < t) ∧
    (P ≤ 30 → ∃ k t, x / 2 ^ (32 - P) * 2 ^ (32 - P) = 4 * k ∧ 2 ^ (32 - P) = 4 * t ∧ 0 < t) ∧
    (P = 32 → x / 2 ^ (32 - P) * 2 ^ (32 - P) = x ∧ 2 ^ (32 - P) = 1) := by
  refine ⟨?_, ?_, ?_⟩
  · intro h
    have e : 2 ^ (32 - P) = 2 * 2 ^ (31 - P) := by
      rw [show 32 - P = 1 + (31 - P) by omega, Nat.pow_add]
    exact ⟨x / 2 ^ (32 - P) * 2 ^ (31 - P), 2 ^ (31 - P), by rw [e]; ring, e, Nat.two_pow_pos _⟩
  · intro h
    have e : 2 ^ (32 - P) = 4 * 2 ^ (30 - P) := by
      rw [show 32 - P = 2 + (30 - P) by omega, Nat.pow_add]
    exact ⟨x / 2 ^ (32 - P) * 2 ^ (30 - P), 2 ^ (30 - P), by rw [e]; ring, e, Nat.two_pow_pos _⟩
  · intro h
    subst h
    simp

/-- C13 on the code: for the /32 descriptor `192.168.5.255/32` the returned
pair is `192.168.5.0`, `192.168.5.254`, whose first component is below the
second as 32-bit values, where the claim has a degenerate pair with
`first > last`: `firstIP[3]++` wraps the last octet from 255 to 0 and
carries nothing into the octets in front. -/
theorem host_route_pair_not_degenerate :
    getFirstAndLastIP "192.168.5.255/32"
      = .ret (dottedDecimal [192, 168, 5, 0], dottedDecimal [192, 168, 5, 254]) ∧
    toValue [192, 168, 5, 0] ≤ toValue [192, 168, 5, 254] := by
  refine ⟨by decide, by decide⟩

/-- The order of the pair the code returns: on a valid IPv4 descriptor
`a.b.c.d/P` the pair returned by `getFirstAndLastIP` is the text of two
32-bit values
`first` and `last` with `first ≤ last` when `P ≤ 30` and `first > last`
when `P = 31`; when `P = 32`, `first > last` holds exactly when the last
octet `d` is neither 0 nor 255 (for `d = 0` or `d = 255` the wrapping octet
arithmetic gives `first < last`). -/
theorem range_pair_order (s : String) (a b c d P : Nat) (h : IsCIDR4 s a b c d P) :
    ∃ first last : Nat, first < 2 ^ 32 ∧ last < 2 ^ 32 ∧
      getFirstAndLastIP s = .ret (dottedDecimal (ofValue first), dottedDecimal (ofValue last)) ∧
      (P ≤ 30 → first ≤ last) ∧ (P = 31 → last < first) ∧
      (P = 32 → (last < first ↔ d ≠ 0 ∧ d ≠ 255)) ∧
      (P = 32 → (d = 0 ∨ d = 255) → first < last) := by
  have hval := getFirstAndLastIP_value s a b c d P h
  obtain ⟨ha, hb, hc, hd, hP, -⟩ := h
  have hbase := toValue_lt a b c d ha hb hc hd
  have hend := block_end_le _ P hbase hP
  have hs : 0 < 2 ^ (32 - P) := Nat.two_pow_pos _
  obtain ⟨h31, h30, h32⟩ := block_parity (toValue [a, b, c, d]) P hP
  have hd256 : toValue [a, b, c, d] % 256 = d := by
    simp only [toValue, List.foldl_cons, List.foldl_nil]
    omega
  have e32 : (2 : Nat) ^ 32 = 4294967296 := by norm_num
  rw [e32] at hend hbase
  refine ⟨_, _, ?_, ?_, hval, ?_, ?_, ?_, ?_⟩
  · rw [e32]; omega
  · rw [e32]; omega
  · intro hp
    obtain ⟨k, t, hk, ht, htp⟩ := h30 hp
    rw [hk, ht] at hend ⊢
    omega
  · intro hp
    obtain ⟨k, t, hk, ht, htp⟩ := h31 (by omega)
    have ht1 : 2 ^ (32 - P) = 2 := by subst hp; norm_num
    rw [hk, ht1] at hend ⊢
    omega
  · intro hp
    obtain ⟨hx, h1⟩ := h32 hp
    rw [hx, h1] at hend ⊢
    omega
  · intro hp hd0
    obtain ⟨hx, h1⟩ := h32 hp
    rw [hx, h1] at hend ⊢
    omega

theorem isCIDR4_example_host : IsCIDR4 "192.168.5.255/32" 192 168 5 255 32 :=
  ⟨by decide, by decide, by decide, by decide, by decide, by rfl⟩

theorem range_pair_order_witness :
    IsCIDR4 "192.168.5.255/32" 192 168 5 255 32 ∧
    ∃ first last : Nat, first < 2 ^ 32 ∧ last < 2 ^ 32 ∧
      getFirstAndLastIP "192.168.5.255/32"
        = .ret (dottedDecimal (ofValue first), dottedDecimal (ofValue last)) ∧
      (32 ≤ 30 → first ≤ last) ∧ (32 = 31 → last < first) ∧
      (32 = 32 → (last < first ↔ 255 ≠ 0 ∧ 255 ≠ 255)) ∧
      (32 = 32 → (255 = 0 ∨ 255 = 255) → first < last) :=
  ⟨isCIDR4_example_host,
    range_pair_order "192.168.5.255/32" 192 168 5 255 32 isCIDR4_example_host⟩
/-- C17: on a valid IPv4 descriptor `a.b.c.d/P` the pair returned by
`getFirstAndLastIP` is the text of two 32-bit values `first` and `last`;
when `P ≤ 31`, or when the last octet `d` is not 255, `first` is the network
address plus 1, which is also what the carrying `inc` gives; when `P ≤ 31`,
or when `d` is not 0, `last` is the broadcast address minus 1.  So the
octet-only arithmetic can differ from the carrying one only for a /32
descriptor whose last octet is 255 (first) or 0 (last). -/
theorem range_pair_no_wrap (s : String) (a b c d P : Nat) (h : IsCIDR4 s a b c d P) :
    ∃ first last : Nat, first < 2 ^ 32 ∧ last < 2 ^ 32 ∧
      getFirstAndLastIP s = .ret (dottedDecimal (ofValue first), dottedDecimal (ofValue last)) ∧
      (P ≤ 31 ∨ d ≠ 255 →
        first = toValue (networkAddress [a, b, c, d] (CIDRMask P 32)) + 1 ∧
        ofValue first = inc (networkAddress [a, b, c, d] (CIDRMask P 32))) ∧
      (P ≤ 31 ∨ d ≠ 0 →
        last + 1 = toValue (broadcastAddress [a, b, c, d] (CIDRMask P 32))) := by
  have hval := getFirstAndLastIP_value s a b c d P h
  obtain ⟨ha, hb, hc, hd, hP, -⟩ := h
  have hbase := toValue_lt a b c d ha hb hc hd
  have hend := block_end_le _ P hbase hP
  have hnwlt := block_lt (toValue [a, b, c, d]) P hbase
  have hs : 0 < 2 ^ (32 - P) := Nat.two_pow_pos _
  obtain ⟨h31, -, h32⟩ := block_parity (toValue [a, b, c, d]) P hP
  have hd256 : toValue [a, b, c, d] % 256 = d := by
    simp only [toValue, List.foldl_cons, List.foldl_nil]
    omega
  have hnw := networkAddress_four a b c d P ha hb hc hd hP
  have hbc := broadcastAddress_four a b c d P ha hb hc hd hP
  have e32 : (2 : Nat) ^ 32 = 4294967296 := by norm_num
  -- the last octet of the network address is not 255, that of the broadcast address not 0
  have hfirst : P ≤ 31 ∨ d ≠ 255 →
      toValue [a, b, c, d] / 2 ^ (32 - P) * 2 ^ (32 - P) % 256 ≠ 255 := by
    intro hp
    by_cases h1 : P ≤ 31
    · obtain ⟨k, t, hk, -, -⟩ := h31 h1
      rw [hk]; omega
    · obtain ⟨hx, -⟩ := h32 (by omega)
      rw [hx, hd256]
      rcases hp with hp | hp
      · omega
      · exact hp
  have hlast : P ≤ 31 ∨ d ≠ 0 →
      (toValue [a, b, c, d] / 2 ^ (32 - P) * 2 ^ (32 - P) + (2 ^ (32 - P) - 1)) % 256 ≠ 0 := by
    intro hp
    by_cases h1 : P ≤ 31
    · obtain ⟨k, t, hk, ht, htp⟩ := h31 h1
      rw [hk, ht]; omega
    · obtain ⟨hx, hone⟩ := h32 (by omega)
      rw [hx, hone]
      rcases hp with hp | hp
      · omega
      · simpa [hd256] using hp
  rw [e32] at hend hbase hnwlt
  refine ⟨_, _, ?_, ?_, hval, ?_, ?_⟩
  · rw [e32]; omega
  · rw [e32]; omega
  · intro hp
    have h255 := hfirst hp
    have hf : toValue [a, b, c, d] / 2 ^ (32 - P) * 2 ^ (32 - P) / 256 * 256
        + (toValue [a, b, c, d] / 2 ^ (32 - P) * 2 ^ (32 - P) % 256 + 1) % 256
        = toValue [a, b, c, d] / 2 ^ (32 - P) * 2 ^ (32 - P) + 1 := by omega
    rw [hf, hnw, toValue_ofValue _ (by rw [e32]; exact hnwlt), inc_ofValue, e32]
    refine ⟨rfl, ?_⟩
    congr 1
    omega
  · intro hp
    have h0 := hlast hp
    rw [hbc, toValue_ofValue _ (by rw [e32]; omega)]
    omega

theorem range_pair_no_wrap_witness :
    IsCIDR4 "10.0.0.77/24" 10 0 0 77 24 ∧
    ∃ first last : Nat, first < 2 ^ 32 ∧ last < 2 ^ 32 ∧
      getFirstAndLastIP "10.0.0.77/24"
        = .ret (dottedDecimal (ofValue first), dottedDecimal (ofValue last)) ∧
      (24 ≤ 31 ∨ 77 ≠ 255 →
        first = toValue (networkAddress [10, 0, 0, 77] (CIDRMask 24 32)) + 1 ∧
        ofValue first = inc (networkAddress [10, 0, 0, 77] (CIDRMask 24 32))) ∧
      (24 ≤ 31 ∨ 77 ≠ 0 →
        last + 1 = toValue (broadcastAddress [10, 0, 0, 77] (CIDRMask 24 32))) :=
  ⟨isCIDR4_example_24, range_pair_no_wrap "10.0.0.77/24" 10 0 0 77 24 isCIDR4_example_24⟩

/-! ## The count for blocks made of whole /24 blocks (C16) -/

theorem filter_aligned_256 (x : Nat) (hx : x % 256 = 0) :
    ((List.range' x 256).filter (fun v => !excluded v)).length = 254 := by
  rw [List.range'_eq_map_range, List.filter_map]
  have hfun : ((fun v => !excluded v) ∘ fun k => x + k) = fun k => !excluded k := by
    funext k
    simp only [Function.comp, excluded]
    have : (x + k) % 256 = k % 256 := by omega
    rw [this]
  rw [hfun, filter_range_256]
  simp

theorem filter_aligned_blocks (m : Nat) :
    ∀ x, x % 256 = 0 →
      ((List.range' x (256 * m)).filter (fun v => !excluded v)).length = 254 * m := by
  induction m with
  | zero => intro x _; simp
  | succ m ih =>
    intro x hx
    have hsplit : List.range' x (256 * (m + 1))
        = List.range' x 256 ++ List.range' (x + 256) (256 * m) := by
      rw [List.range'_append_1, Nat.mul_succ]
    rw [hsplit, List.filter_append, List.length_append, filter_aligned_256 x hx,
      ih (x + 256) (by omega)]
    omega

/-- C16: on a valid IPv4 descriptor with `1 ≤ P ≤ 24`, `getAllIPAddresses`
returns a list of exactly `254 * 2 ^ (24 - P)` addresses, that is
`2 ^ (32 - P)` minus 2 for each of the `2 ^ (24 - P)` blocks of 256 addresses
the subnet covers, whatever the base address. -/
theorem getAllIPAddresses_count (s : String) (a b c d P : Nat) (h : IsCIDR4 s a b c d P)
    (hP1 : 1 ≤ P) (hP24 : P ≤ 24) (fuel : Nat) (hf : 2 ^ (32 - P) < fuel) :
    ∃ l, getAllIPAddresses fuel s = .ret l ∧ l.length = 254 * 2 ^ (24 - P) ∧
      254 * 2 ^ (24 - P) = 2 ^ (32 - P) - 2 * 2 ^ (24 - P) := by
  have hret := getAllIPAddresses_block s a b c d P h hP1 fuel hf
  have hsize : 2 ^ (32 - P) = 256 * 2 ^ (24 - P) := by
    rw [show 32 - P = 8 + (24 - P) by omega, Nat.pow_add]
  refine ⟨_, hret, ?_, ?_⟩
  · rw [List.length_map, hsize]
    apply filter_aligned_blocks
    rw [← Nat.mul_assoc]
    have : toValue [a, b, c, d] / (256 * 2 ^ (24 - P)) * 256 * 2 ^ (24 - P)
        = 256 * (toValue [a, b, c, d] / (256 * 2 ^ (24 - P)) * 2 ^ (24 - P)) := by ring
    rw [this]
    exact Nat.mul_mod_right _ _
  · rw [hsize]
    omega

theorem isCIDR4_example_22 : IsCIDR4 "172.16.9.3/22" 172 16 9 3 22 :=
  ⟨by decide, by decide, by decide, by decide, by decide, by rfl⟩

theorem getAllIPAddresses_count_witness :
    IsCIDR4 "172.16.9.3/22" 172 16 9 3 22 ∧
    ∃ l, getAllIPAddresses 2000 "172.16.9.3/22" = .ret l ∧ l.length = 254 * 2 ^ (24 - 22) ∧
      254 * 2 ^ (24 - 22) = 2 ^ (32 - 22) - 2 * 2 ^ (24 - 22) :=
  ⟨isCIDR4_example_22,
    getAllIPAddresses_count "172.16.9.3/22" 172 16 9 3 22 isCIDR4_example_22 (by decide)
      (by decide) 2000 (by decide)⟩

/-! ## The list-based `printRange` (C18) -/

theorem ipToInt_four (a b c d : Nat) (hb : b < 256) (hc : c < 256) (hd : d < 256) : ipToInt [a, b, c, d] = some (toValue [a, b, c, d]) := by
  have h4 : IP.To4 [a, b, c, d] = some [a, b, c, d] := by simp [IP.To4, IPv4len]
  simp only [ipToInt, h4, toValue, List.foldl_cons, List.foldl_nil, Nat.shiftLeft_eq]
  congr 1
  have h1 : a * 2 ^ 24 ||| b * 2 ^ 16 = 2 ^ 16 * (a * 256 + b) := by
    rw [show a * 2 ^ 24 = 2 ^ 24 * a by ring, ← Nat.mul_add_lt_is_or (by omega) a]
    ring
  have h2 : 2 ^ 16 * (a * 256 + b) ||| c * 2 ^ 8 = 2 ^ 8 * ((a * 256 + b) * 256 + c) := by
    rw [← Nat.mul_add_lt_is_or (by omega) (a * 256 + b)]
    ring
  have h3 : 2 ^ 8 * ((a * 256 + b) * 256 + c) ||| d = ((a * 256 + b) * 256 + c) * 256 + d := by
    rw [← Nat.mul_add_lt_is_or (by omega) ((a * 256 + b) * 256 + c)]
    ring
  rw [h1, h2, h3]
  ring

theorem intToIP_eq (v : Nat) : intToIP v = v4InV6Head ++ ofValue v := by
  simp only [intToIP, IPv4, ofValue, Nat.shiftRight_eq_div_pow]

theorem String_v4InV6 (v : Nat) : IP.String (v4InV6Head ++ ofValue v) = dottedDecimal (ofValue v) := by
  have h4 : IP.To4 (v4InV6Head ++ ofValue v) = some (ofValue v) := by
    simp [IP.To4, IPv4len, IPv6len, v4InV6Head, ofValue, isZeros]
  rw [← IP_String_ofValue]
  have h4' : IP.To4 (ofValue v) = some (ofValue v) := by simp [IP.To4, IPv4len, ofValue]
  simp only [IP.String, h4, h4']
  simp [v4InV6Head, ofValue, IPv4len, IPv6len]

theorem ParseIP_dottedDecimal (a b c d : Nat) (ha : a < 256) (hb : b < 256) (hc : c < 256)
    (hd : d < 256) : ParseIP (dottedDecimal [a, b, c, d]) = v4InV6Head ++ [a, b, c, d] := by
  have hmark : firstMark (dotted a b c d) = some '.' := by
    simp only [dotted]
    exact firstMark_ubtoa a ha _
  simp only [ParseIP, toList_dottedDecimal a b c d ha hb hc hd, ParseAddr, hmark, parseIPv4,
    parseIPv4Fields_dotted a b c d ha hb hc hd, Option.map_some', if_true]
  simp

theorem To4_v4InV6 (a b c d : Nat) : IP.To4 (v4InV6Head ++ [a, b, c, d]) = some [a, b, c, d] := by
  simp [IP.To4, IPv4len, IPv6len, v4InV6Head, isZeros]

/-- `printRange` on a list whose first and last elements are the texts of
the values `x` and `y`. -/
theorem printRange_values (ips : List String) (x y : Nat)
    (hhead : ips.head? = some (dottedDecimal (ofValue x)))
    (hlast : ips.getLast? = some (dottedDecimal (ofValue y))) :
    printRange ips
      = ⟨dottedDecimal (ofValue x) ++ "-" ++ dottedDecimal (ofValue y) ++ "\n", .exited⟩ := by
  have hlt : ∀ z, z % 256 < 256 := fun z => Nat.mod_lt _ (by norm_num)
  have hpx : ParseIP (dottedDecimal (ofValue x)) = v4InV6Head ++ ofValue x :=
    ParseIP_dottedDecimal _ _ _ _ (hlt _) (hlt _) (hlt _) (hlt _)
  have hpy : ParseIP (dottedDecimal (ofValue y)) = v4InV6Head ++ ofValue y :=
    ParseIP_dottedDecimal _ _ _ _ (hlt _) (hlt _) (hlt _) (hlt _)
  have htx : IP.To4 (v4InV6Head ++ ofValue x) = some (ofValue x) := To4_v4InV6 _ _ _ _
  have hty : IP.To4 (v4InV6Head ++ ofValue y) = some (ofValue y) := To4_v4InV6 _ _ _ _
  have hint : ipToInt (ofValue y) = some (toValue (ofValue y)) :=
    ipToInt_four _ _ _ _ (hlt _) (hlt _) (hlt _)
  have hval : ofValue (toValue (ofValue y)) = ofValue y :=
    ofValue_toValue _ _ _ _ (hlt _) (hlt _) (hlt _) (hlt _)
  simp only [printRange, hhead, hlast, hpx, hpy, htx, hty, Option.getD_some, hint, intToIP_eq,
    String_v4InV6, hval, IP_String_ofValue]
theorem filter_block_ends (x n : Nat) (hx : x % 256 = 0) (hn : n % 256 = 0) (hpos : 0 < n) :
    ((List.range' x n).filter (fun v => !excluded v)).head? = some (x + 1) ∧
    ((List.range' x n).filter (fun v => !excluded v)).getLast? = some (x + n - 2) := by
  obtain ⟨k, rfl⟩ : ∃ k, n = k + 2 := ⟨n - 2, by omega⟩
  have e0 : excluded x = true := by simp [excluded, hx]
  have e1 : excluded (x + 1) = false := by
    have : (x + 1) % 256 = 1 := by omega
    simp [excluded, this]
  have e2 : excluded (x + k) = false := by
    have : (x + k) % 256 = 254 := by omega
    simp [excluded, this]
  have e3 : excluded (x + (k + 1)) = true := by
    have : (x + (k + 1)) % 256 = 255 := by omega
    simp [excluded, this]
  constructor
  · rw [List.range'_succ, List.range'_succ]
    simp [List.filter_cons, e0, e1]
  · rw [List.range'_concat, List.range'_concat]
    simp only [Nat.one_mul, List.filter_append, List.filter_cons, List.filter_nil, e2, e3,
      Bool.not_false, Bool.not_true, if_true]
    simp
    omega

/-- C18: on a valid IPv4 descriptor with `1 ≤ P ≤ 24`, the pair returned
by `getFirstAndLastIP` is made of the first and the last element of the list
returned by `getAllIPAddresses`, and `printRange` applied to that list
prints the same line as `main` does with the range format. -/
theorem printRange_agrees_with_range (s : String) (a b c d P : Nat) (h : IsCIDR4 s a b c d P)
    (hP1 : 1 ≤ P) (hP24 : P ≤ 24) (fuel : Nat) (hf : 2 ^ (32 - P) < fuel) :
    ∃ ips first last, getAllIPAddresses fuel s = .ret ips ∧
      getFirstAndLastIP s = .ret (first, last) ∧
      ips.head? = some first ∧ ips.getLast? = some last ∧
      printRange ips = ⟨first ++ "-" ++ last ++ "\n", .exited⟩ ∧
      main fuel s "range" false = ⟨first ++ "-" ++ last ++ "\n", .exited⟩ := by
  have hret := getAllIPAddresses_block s a b c d P h hP1 fuel hf
  have hval := getFirstAndLastIP_value s a b c d P h
  obtain ⟨ha, hb, hc, hd, hP, -⟩ := h
  have hsize : 2 ^ (32 - P) = 256 * 2 ^ (24 - P) := by
    rw [show 32 - P = 8 + (24 - P) by omega, Nat.pow_add]
  have hm : 0 < 2 ^ (24 - P) := Nat.two_pow_pos _
  have hn256 : 2 ^ (32 - P) % 256 = 0 := by rw [hsize]; exact Nat.mul_mod_right _ _
  have hx256 : toValue [a, b, c, d] / 2 ^ (32 - P) * 2 ^ (32 - P) % 256 = 0 := by
    rw [hsize]
    have : toValue [a, b, c, d] / (256 * 2 ^ (24 - P)) * (256 * 2 ^ (24 - P))
        = 256 * (toValue [a, b, c, d] / (256 * 2 ^ (24 - P)) * 2 ^ (24 - P)) := by ring
    rw [this]
    exact Nat.mul_mod_right _ _
  obtain ⟨hhead, hlast⟩ := filter_block_ends _ _ hx256 hn256 (Nat.two_pow_pos _)
  -- the two values of the range pair
  have hf1 : toValue [a, b, c, d] / 2 ^ (32 - P) * 2 ^ (32 - P) / 256 * 256
      + (toValue [a, b, c, d] / 2 ^ (32 - P) * 2 ^ (32 - P) % 256 + 1) % 256
      = toValue [a, b, c, d] / 2 ^ (32 - P) * 2 ^ (32 - P) + 1 := by omega
  have hl1 : (toValue [a, b, c, d] / 2 ^ (32 - P) * 2 ^ (32 - P) + (2 ^ (32 - P) - 1)) / 256 * 256
      + ((toValue [a, b, c, d] / 2 ^ (32 - P) * 2 ^ (32 - P) + (2 ^ (32 - P) - 1)) % 256
          + 255) % 256
      = toValue [a, b, c, d] / 2 ^ (32 - P) * 2 ^ (32 - P) + 2 ^ (32 - P) - 2 := by omega
  rw [hf1, hl1] at hval
  have hh : (List.map (fun v => dottedDecimal (ofValue v))
      (List.filter (fun v => !excluded v)
        (List.range' (toValue [a, b, c, d] / 2 ^ (32 - P) * 2 ^ (32 - P)) (2 ^ (32 - P))))).head?
      = some (dottedDecimal (ofValue (toValue [a, b, c, d] / 2 ^ (32 - P) * 2 ^ (32 - P) + 1))) := by
    rw [List.head?_map, hhead]; rfl
  have hg : (List.map (fun v => dottedDecimal (ofValue v))
      (List.filter (fun v => !excluded v)
        (List.range' (toValue [a, b, c, d] / 2 ^ (32 - P) * 2 ^ (32 - P)) (2 ^ (32 - P))))).getLast?
      = some (dottedDecimal (ofValue
          (toValue [a, b, c, d] / 2 ^ (32 - P) * 2 ^ (32 - P) + 2 ^ (32 - P) - 2))) := by
    rw [List.getLast?_map, hlast]; rfl
  refine ⟨_, _, _, hret, hval, hh, hg, printRange_values _ _ _ hh hg, ?_⟩
  simp only [main, hval]
  simp

theorem printRange_agrees_with_range_witness :
    IsCIDR4 "172.16.9.3/22" 172 16 9 3 22 ∧
    ∃ ips first last, getAllIPAddresses 2000 "172.16.9.3/22" = .ret ips ∧
      getFirstAndLastIP "172.16.9.3/22" = .ret (first, last) ∧
      ips.head? = some first ∧ ips.getLast? = some last ∧
      printRange ips = ⟨first ++ "-" ++ last ++ "\n", .exited⟩ ∧
      main 2000 "172.16.9.3/22" "range" false = ⟨first ++ "-" ++ last ++ "\n", .exited⟩ :=
  ⟨isCIDR4_example_22,
    printRange_agrees_with_range "172.16.9.3/22" 172 16 9 3 22 isCIDR4_example_22 (by decide)
      (by decide) 2000 (by decide)⟩

/-! ## The comma format (C12) -/

theorem intercalate_go_data (sep : String) :
    ∀ (l : List String) (acc : String),
      (String.intercalate.go acc sep l).data
        = acc.data ++ l.flatMap (fun a => sep.data ++ a.data) := by
  intro l
  induction l with
  | nil => intro acc; simp [String.intercalate.go]
  | cons a as ih =>
    intro acc
    simp only [String.intercalate.go, ih, String.data_append, List.flatMap_cons,
      List.append_assoc]

theorem Join_cons_data (a : String) (as : List String) :
    (GoStrings.Join (a :: as) ",").data = a.data ++ as.flatMap (fun x => ',' :: x.data) := by
  simp only [GoStrings.Join, String.intercalate, intercalate_go_data]
  rfl

theorem splitCommaChars_piece (p : List Char) (hp : ∀ c ∈ p, c ≠ ',') :
    splitCommaChars p = [p] ∧ ∀ r, splitCommaChars (p ++ ',' :: r) = p :: splitCommaChars r := by
  induction p with
  | nil =>
    constructor
    · rfl
    · intro r; simp [splitCommaChars]
  | cons c cs ih =>
    have hc : c ≠ ',' := hp c (List.mem_cons_self _ _)
    obtain ⟨ih1, ih2⟩ := ih (fun x hx => hp x (List.mem_cons_of_mem _ hx))
    constructor
    · simp [splitCommaChars, hc, ih1]
    · intro r
      simp [splitCommaChars, hc, ih2]

theorem splitCommaChars_joined :
    ∀ (as : List String) (a : String), (∀ x ∈ a :: as, ∀ c ∈ x.data, c ≠ ',') →
      splitCommaChars (a.data ++ as.flatMap (fun x => ',' :: x.data)) = (a :: as).map String.data := by
  intro as
  induction as with
  | nil =>
    intro a h
    simp only [List.flatMap_nil, List.append_nil, List.map_cons, List.map_nil]
    exact (splitCommaChars_piece a.data (h a (List.mem_cons_self _ _))).1
  | cons b bs ih =>
    intro a h
    have hb := ih b (fun x hx => h x (List.mem_cons_of_mem _ hx))
    simp only [List.flatMap_cons, List.cons_append, List.map_cons]
    rw [(splitCommaChars_piece a.data (h a (List.mem_cons_self _ _))).2, hb]
    rfl

/-- Splitting the comma-joined text of a non-empty list of comma-free
strings gives the list back. -/
theorem splitAtCommas_Join (ips : List String) (hne : ips ≠ [])
    (h : ∀ x ∈ ips, ∀ c ∈ x.data, c ≠ ',') : splitAtCommas (GoStrings.Join ips ",") = ips := by
  match ips, hne with
  | a :: as, _ =>
    simp only [splitAtCommas, String.toList, Join_cons_data, splitCommaChars_joined as a h,
      List.map_map]
    have : (String.mk ∘ String.data) = id := by funext x; rfl
    rw [this, List.map_id]

set_option maxRecDepth 100000 in
theorem ubtoa_digits :
    ∀ v < 256, (ubtoa v).all (fun c => decide (48 ≤ c.toNat ∧ c.toNat ≤ 57)) = true := by
  decide

theorem dotted_chars (a b c d : Nat) (ha : a < 256) (hb : b < 256) (hc : c < 256)
    (hd : d < 256) : ∀ x ∈ dotted a b c d, x = '.' ∨ (48 ≤ x.toNat ∧ x.toNat ≤ 57) := by
  have h : ∀ v, v < 256 → ∀ x ∈ ubtoa v, 48 ≤ x.toNat ∧ x.toNat ≤ 57 := by
    intro v hv x hx
    simpa using List.all_eq_true.mp (ubtoa_digits v hv) x hx
  intro x hx
  simp only [dotted, List.mem_append, List.mem_cons] at hx
  rcases hx with hx | rfl | hx | rfl | hx | rfl | hx
  · exact Or.inr (h a ha x hx)
  · exact Or.inl rfl
  · exact Or.inr (h b hb x hx)
  · exact Or.inl rfl
  · exact Or.inr (h c hc x hx)
  · exact Or.inl rfl
  · exact Or.inr (h d hd x hx)

theorem dottedDecimal_ofValue_chars (v : Nat) :
    (dottedDecimal (ofValue v)).data ≠ [] ∧
    ∀ x ∈ (dottedDecimal (ofValue v)).data, x = '.' ∨ (48 ≤ x.toNat ∧ x.toNat ≤ 57) := by
  have hlt : ∀ z, z % 256 < 256 := fun z => Nat.mod_lt _ (by norm_num)
  have hd := toList_dottedDecimal _ _ _ _ (hlt (v / 16777216)) (hlt (v / 65536)) (hlt (v / 256))
    (hlt v)
  simp only [String.toList] at hd
  constructor
  · simp only [ofValue, hd, dotted]
    obtain ⟨c, cs, hc⟩ := ubtoa_cons _ (hlt (v / 16777216))
    rw [hc]
    simp
  · intro x hx
    simp only [ofValue] at hx
    rw [hd] at hx
    exact dotted_chars _ _ _ _ (hlt _) (hlt _) (hlt _) (hlt _) x hx

theorem not_comma_of_address_char (x : Char) (h : x = '.' ∨ (48 ≤ x.toNat ∧ x.toNat ≤ 57)) :
    x ≠ ',' := by
  rintro rfl
  rcases h with h | h
  · exact absurd h (by decide)
  · exact absurd h.1 (by decide)

theorem joined_last_not_comma :
    ∀ (as : List String) (a : String),
      (∀ x ∈ a :: as, x.data ≠ [] ∧ ∀ c ∈ x.data, c ≠ ',') →
      (a.data ++ as.flatMap (fun x => ',' :: x.data)).getLast? ≠ some ',' := by
  intro as
  induction as with
  | nil =>
    intro a h hl
    simp only [List.flatMap_nil, List.append_nil] at hl
    exact (h a (List.mem_cons_self _ _)).2 ',' (List.mem_of_getLast?_eq_some hl) rfl
  | cons b bs ih =>
    intro a h hl
    have hb := ih b (fun x hx => h x (List.mem_cons_of_mem _ hx))
    have hbne : b.data ≠ [] := (h b (List.mem_cons_of_mem _ (List.mem_cons_self _ _))).1
    simp only [List.flatMap_cons] at hl
    rw [show a.data ++ (',' :: b.data ++ bs.flatMap (fun x => ',' :: x.data))
      = (a.data ++ [',']) ++ (b.data ++ bs.flatMap (fun x => ',' :: x.data)) by simp] at hl
    rw [List.getLast?_append] at hl
    cases hlast : (b.data ++ bs.flatMap (fun x => ',' :: x.data)).getLast? with
    | none =>
      rw [List.getLast?_eq_none_iff] at hlast
      simp at hlast
      exact hbne hlast.1
    | some c =>
      rw [hlast] at hl
      simp only [Option.or_some] at hl
      exact hb (by rw [hlast, hl])
/-- C12 fails as stated: for `10.0.0.0/32` the list returned by
`getAllIPAddresses` is empty and the comma format prints an empty line;
splitting the empty text at every comma gives one (empty) piece, not the
empty list. -/
theorem comma_line_of_empty_list :
    getAllIPAddresses 5 "10.0.0.0/32" = .ret [] ∧
    main 5 "10.0.0.0/32" "comma" false = ⟨"\n", .exited⟩ ∧
    splitAtCommas (GoStrings.Join [] ",") = [""] ∧
    splitAtCommas (GoStrings.Join [] ",") ≠ [] := by
  refine ⟨by decide, by decide, by decide, by decide⟩

/-- C12, as the code has it: on a valid IPv4 descriptor with `1 ≤ P`, once
the fuel covers the block, the comma format prints one line, the elements of
the list returned by `getAllIPAddresses` joined by single commas; the line
neither starts nor ends with a comma, and when the list is not empty,
splitting the line at every comma gives exactly that list, in the same
order (for the empty list the line is empty). -/
theorem comma_line_round_trip (s : String) (a b c d P : Nat) (h : IsCIDR4 s a b c d P)
    (hP1 : 1 ≤ P) (fuel : Nat) (hf : 2 ^ (32 - P) < fuel) :
    ∃ ips, getAllIPAddresses fuel s = .ret ips ∧
      main fuel s "comma" false = ⟨GoStrings.Join ips "," ++ "\n", .exited⟩ ∧
      (GoStrings.Join ips ",").toList.head? ≠ some ',' ∧
      (GoStrings.Join ips ",").toList.getLast? ≠ some ',' ∧
      (ips ≠ [] → splitAtCommas (GoStrings.Join ips ",") = ips) ∧
      (ips = [] → GoStrings.Join ips "," = "") := by
  have hret := getAllIPAddresses_block s a b c d P h hP1 fuel hf
  have hm : GoStrings.ToLower "comma" = "comma" := by decide
  have hel : ∀ x ∈ ((List.range' (toValue [a, b, c, d] / 2 ^ (32 - P) * 2 ^ (32 - P))
      (2 ^ (32 - P))).filter (fun v => !excluded v)).map (fun v => dottedDecimal (ofValue v)),
      x.data ≠ [] ∧ ∀ c ∈ x.data, c ≠ ',' := by
    intro x hx
    obtain ⟨v, -, rfl⟩ := List.mem_map.mp hx
    obtain ⟨h1, h2⟩ := dottedDecimal_ofValue_chars v
    exact ⟨h1, fun c hc => not_comma_of_address_char c (h2 c hc)⟩
  generalize ((List.range' (toValue [a, b, c, d] / 2 ^ (32 - P) * 2 ^ (32 - P))
      (2 ^ (32 - P))).filter (fun v => !excluded v)).map (fun v => dottedDecimal (ofValue v))
      = ips at hret hel
  refine ⟨ips, hret, ?_, ?_, ?_, ?_, ?_⟩
  · simp only [main, hret, hm]
    simp [printCommaDelimited]
  · cases ips with
    | nil => simp [GoStrings.Join, String.intercalate]
    | cons x xs =>
      simp only [String.toList, Join_cons_data]
      obtain ⟨hne, hnc⟩ := hel x (List.mem_cons_self _ _)
      cases hx : x.data with
      | nil => exact absurd hx hne
      | cons c cs =>
        simp only [List.cons_append, List.head?_cons, ne_eq, Option.some.injEq]
        exact hnc c (by rw [hx]; exact List.mem_cons_self _ _)
  · cases ips with
    | nil => simp [GoStrings.Join, String.intercalate]
    | cons x xs =>
      simp only [String.toList, Join_cons_data]
      exact joined_last_not_comma xs x hel
  · intro hne
    exact splitAtCommas_Join ips hne (fun x hx => (hel x hx).2)
  · intro he
    subst he
    rfl

theorem comma_line_round_trip_witness :
    IsCIDR4 "10.0.0.0/30" 10 0 0 0 30 ∧
    ∃ ips, getAllIPAddresses 5 "10.0.0.0/30" = .ret ips ∧
      main 5 "10.0.0.0/30" "comma" false = ⟨GoStrings.Join ips "," ++ "\n", .exited⟩ ∧
      (GoStrings.Join ips ",").toList.head? ≠ some ',' ∧
      (GoStrings.Join ips ",").toList.getLast? ≠ some ',' ∧
      (ips ≠ [] → splitAtCommas (GoStrings.Join ips ",") = ips) ∧
      (ips = [] → GoStrings.Join ips "," = "") :=
  ⟨isCIDR4_example_30,
    comma_line_round_trip "10.0.0.0/30" 10 0 0 0 30 isCIDR4_example_30 (by decide) 5 (by decide)⟩

/-! ## The characters of an address text -/

theorem addressChar_iff (c : Char) : addressChar c = true ↔
    (c.toNat = 46 ∨ c.toNat = 58 ∨ c.toNat = 63 ∨ (48 ≤ c.toNat ∧ c.toNat ≤ 57) ∨
      (97 ≤ c.toNat ∧ c.toNat ≤ 102)) := by
  simp [addressChar]

/-- An address character is written to JSON as it is. -/
theorem escapeChar_addressChar (c : Char) (h : addressChar c = true) :
    GoJSON.escapeChar c = [c] := by
  have h1 : c ≠ '"' := by rintro rfl; revert h; decide
  have h2 : c ≠ '\\' := by rintro rfl; revert h; decide
  have h3 : c ≠ '<' := by rintro rfl; revert h; decide
  have h4 : c ≠ '>' := by rintro rfl; revert h; decide
  have h5 : c ≠ '&' := by rintro rfl; revert h; decide
  rw [addressChar_iff] at h
  have n1 : c.toNat ≠ 8 := by omega
  have n2 : c.toNat ≠ 12 := by omega
  have n3 : c.toNat ≠ 10 := by omega
  have n4 : c.toNat ≠ 13 := by omega
  have n5 : c.toNat ≠ 9 := by omega
  have n6 : ¬ c.toNat < 32 := by omega
  have n7 : c.toNat ≠ 8232 := by omega
  have n8 : c.toNat ≠ 8233 := by omega
  simp [GoJSON.escapeChar, h1, h2, h3, h4, h5, n1, n2, n3, n4, n5, n6, n7, n8]

theorem quote_addressChars (x : String) (h : ∀ c ∈ x.data, addressChar c = true) :
    GoJSON.quote x = "\"" ++ x ++ "\"" := by
  have hflat : ∀ l : List Char, (∀ c ∈ l, addressChar c = true) →
      l.flatMap GoJSON.escapeChar = l := by
    intro l
    induction l with
    | nil => intro _; rfl
    | cons c cs ih =>
      intro hl
      rw [List.flatMap_cons, escapeChar_addressChar c (hl c (List.mem_cons_self _ _)),
        ih (fun y hy => hl y (List.mem_cons_of_mem _ hy))]
      rfl
  apply String.ext
  simp only [GoJSON.quote, String.toList, hflat x.data h, String.data_append]
  rfl

set_option maxRecDepth 100000 in
theorem hexDigit_addressChar : ∀ n < 16, addressChar (hexDigit n) = true := by decide

set_option maxRecDepth 100000 in
theorem ubtoa_addressChar : ∀ v < 256, (ubtoa v).all addressChar = true := by decide

theorem appendHex_addressChar (x : Nat) (hx : x < 65536) :
    ∀ c ∈ appendHex x, addressChar c = true := by
  intro c hc
  simp only [appendHex] at hc
  split_ifs at hc <;> simp only [List.mem_cons, List.mem_singleton, List.not_mem_nil, or_false] at hc
  · rcases hc with rfl | rfl | rfl | rfl <;> apply hexDigit_addressChar <;> omega
  · rcases hc with rfl | rfl | rfl <;> apply hexDigit_addressChar <;> omega
  · rcases hc with rfl | rfl <;> apply hexDigit_addressChar <;> omega
  · subst hc
    apply hexDigit_addressChar
    omega

theorem getD_lt (ip : IP) (h : ∀ b ∈ ip, b < 256) (k : Nat) : ip.getD k 0 < 256 := by
  rw [List.getD_eq_getElem?_getD]
  cases hk : ip[k]? with
  | none => simp
  | some b =>
    simp only [Option.getD_some]
    exact h b (List.getElem?_mem hk)

theorem v6u16_lt (ip : IP) (h : ∀ b ∈ ip, b < 256) (i : Nat) : v6u16 ip i < 65536 := by
  have h1 := getD_lt ip h (2 * i)
  have h2 := getD_lt ip h (2 * i + 1)
  simp only [v6u16]
  omega

theorem appendGroups_addressChar (ip : IP) (h : ∀ b ∈ ip, b < 256) (zs ze : Nat) :
    ∀ (fuel i : Nat), ∀ c ∈ appendGroups ip zs ze fuel i, addressChar c = true := by
  intro fuel
  induction fuel with
  | zero => intro i c hc; simp [appendGroups] at hc
  | succ f ih =>
    intro i c hc
    simp only [appendGroups] at hc
    split_ifs at hc
    · simp at hc
    · simp only [List.mem_cons, List.not_mem_nil, or_false] at hc
      rcases hc with rfl | rfl
      · decide
      · decide
    · simp only [List.mem_cons, List.mem_append] at hc
      rcases hc with rfl | rfl | hc | hc
      · decide
      · decide
      · exact appendHex_addressChar _ (v6u16_lt ip h _) c hc
      · exact ih _ c hc
    · simp only [List.mem_append, List.mem_singleton] at hc
      rcases hc with (rfl | hc) | hc
      · decide
      · exact appendHex_addressChar _ (v6u16_lt ip h _) c hc
      · exact ih _ c hc
    · simp only [List.mem_append, List.not_mem_nil, false_or] at hc
      rcases hc with hc | hc
      · exact appendHex_addressChar _ (v6u16_lt ip h _) c hc
      · exact ih _ c hc

theorem hexString_addressChar (ip : IP) (h : ∀ b ∈ ip, b < 256) :
    ∀ c ∈ hexString ip, addressChar c = true := by
  intro c hc
  simp only [hexString, List.mem_flatMap, List.mem_cons, List.not_mem_nil, or_false] at hc
  obtain ⟨v, hv, rfl | rfl⟩ := hc
  · exact hexDigit_addressChar _ (by have := h v hv; omega)
  · exact hexDigit_addressChar _ (by omega)

theorem To4_subset (ip l : IP) (h : IP.To4 ip = some l) : ∀ x ∈ l, x ∈ ip := by
  simp only [IP.To4] at h
  split_ifs at h
  · injection h with h; subst h; exact fun x hx => hx
  · injection h with h; subst h
    intro x hx
    exact List.mem_of_mem_drop (List.mem_of_mem_take hx)

theorem dotted_addressChar (a b c d : Nat) (ha : a < 256) (hb : b < 256) (hc : c < 256)
    (hd : d < 256) : ∀ x ∈ dotted a b c d, addressChar x = true := by
  have h : ∀ v, v < 256 → ∀ x ∈ ubtoa v, addressChar x = true := fun v hv =>
    List.all_eq_true.mp (ubtoa_addressChar v hv)
  intro x hx
  simp only [dotted, List.mem_append, List.mem_cons] at hx
  rcases hx with hx | rfl | hx | rfl | hx | rfl | hx
  · exact h a ha x hx
  · decide
  · exact h b hb x hx
  · decide
  · exact h c hc x hx
  · decide
  · exact h d hd x hx

/-- The text of a non-empty address with bytes below 256 is made of address
characters. -/
theorem IP_String_addressChar (ip : IP) (hne : ip ≠ []) (h : ∀ b ∈ ip, b < 256) :
    ∀ c ∈ (IP.String ip).data, addressChar c = true := by
  intro c hc
  simp only [IP.String] at hc
  have hlen : ip.length ≠ 0 := fun h0 => hne (List.length_eq_zero.mp h0)
  rw [if_neg hlen] at hc
  split_ifs at hc
  · simp only [List.mem_cons] at hc
    rcases hc with rfl | hc
    · decide
    · exact hexString_addressChar ip h c hc
  · split at hc
    · rename_i a b c1 d h4
      have hsub := To4_subset ip _ h4
      exact dotted_addressChar a b c1 d (h a (hsub a (by simp))) (h b (hsub b (by simp)))
        (h c1 (hsub c1 (by simp))) (h d (hsub d (by simp))) c hc
    · exact appendGroups_addressChar ip h _ _ _ _ c hc

theorem incRev_lt : ∀ l : List Nat, (∀ b ∈ l, b < 256) → ∀ b ∈ incRev l, b < 256 := by
  intro l
  induction l with
  | nil => intro _ b hb; simp [incRev] at hb
  | cons x xs ih =>
    intro h b hb
    have hx : (x + 1) % 256 < 256 := Nat.mod_lt _ (by norm_num)
    simp only [incRev] at hb
    split_ifs at hb
    · rcases List.mem_cons.mp hb with rfl | hb
      · exact hx
      · exact h b (List.mem_cons_of_mem _ hb)
    · rcases List.mem_cons.mp hb with rfl | hb
      · exact hx
      · exact ih (fun y hy => h y (List.mem_cons_of_mem _ hy)) b hb

theorem inc_lt (ip : IP) (h : ∀ b ∈ ip, b < 256) : ∀ b ∈ inc ip, b < 256 := by
  intro b hb
  simp only [inc, List.mem_reverse] at hb
  exact incRev_lt ip.reverse (fun y hy => h y (List.mem_reverse.mp hy)) b hb

theorem zipWith_land_lt : ∀ (l m : List Nat), (∀ x ∈ m, x < 256) →
    ∀ b ∈ List.zipWith (fun a k => a &&& k) l m, b < 256 := by
  intro l
  induction l with
  | nil => intro m _ b hb; simp at hb
  | cons a as ih =>
    intro m hm b hb
    cases m with
    | nil => simp at hb
    | cons k ks =>
      simp only [List.zipWith_cons_cons, List.mem_cons] at hb
      rcases hb with rfl | hb
      · exact lt_of_le_of_lt Nat.and_le_right (hm k (List.mem_cons_self _ _))
      · exact ih ks (fun y hy => hm y (List.mem_cons_of_mem _ hy)) b hb

theorem IP_Mask_lt (ip : IP) (mask : IPMask) (hm : ∀ x ∈ mask, x < 256) :
    ∀ b ∈ IP.Mask ip mask, b < 256 := by
  intro b hb
  simp only [IP.Mask] at hb
  split_ifs at hb
  all_goals first
    | (simp at hb)
    | exact zipWith_land_lt _ _ (fun y hy => hm y (List.mem_of_mem_drop hy)) b hb
    | exact zipWith_land_lt _ _ hm b hb

theorem cidrMaskLoop_lt : ∀ (l n : Nat), ∀ x ∈ cidrMaskLoop l n, x < 256 := by
  intro l
  induction l with
  | zero => intro n x hx; simp [cidrMaskLoop] at hx
  | succ l ih =>
    intro n x hx
    simp only [cidrMaskLoop, List.mem_cons] at hx
    rcases hx with rfl | hx
    · simp only [maskByte]
      split_ifs
      · norm_num
      · exact lt_of_le_of_lt (Nat.sub_le _ _) (by norm_num)
    · exact ih _ x hx

theorem CIDRMask_lt (ones bits : Nat) : ∀ x ∈ CIDRMask ones bits, x < 256 := by
  intro x hx
  simp only [CIDRMask] at hx
  split_ifs at hx
  · simp at hx
  · simp at hx
  · exact cidrMaskLoop_lt _ _ x hx

theorem ParseCIDR_mask_lt (s : String) (ip : IP) (net : IPNet) (h : ParseCIDR s = .ok (ip, net)) :
    ∀ x ∈ net.Mask, x < 256 := by
  simp only [ParseCIDR] at h
  split at h
  · cases h
  · split at h
    · cases h
    · split at h
      · cases h
      · split at h
        · cases h
        · injection h with h
          injection h with _ h
          subst h
          exact CIDRMask_lt _ _

/-! ## The JSON format (C14) -/

theorem enumLoop_addressChar (ipNet : IPNet) :
    ∀ (fuel : Nat) (ip : IP) (acc r : List String),
      enumLoop ipNet fuel ip acc = .ret r → (∀ b ∈ ip, b < 256) →
      (∀ x ∈ acc, ∀ c ∈ x.data, addressChar c = true) →
      ∀ x ∈ r, ∀ c ∈ x.data, addressChar c = true := by
  intro fuel
  induction fuel with
  | zero => intro ip acc r h; simp [enumLoop] at h
  | succ f ih =>
    intro ip acc r h hip hacc
    rw [enumLoop] at h
    split_ifs at h
    · cases hex : isExcludedIP ip with
      | none => rw [hex] at h; cases h
      | some e =>
        rw [hex] at h
        cases e with
        | true => exact ih _ _ _ h (inc_lt ip hip) hacc
        | false =>
          have hne : ip ≠ [] := by
            rintro rfl
            simp [isExcludedIP] at hex
          refine ih _ _ _ h (inc_lt ip hip) ?_
          intro x hx
          rcases List.mem_append.mp hx with hx | hx
          · exact hacc x hx
          · rw [List.mem_singleton] at hx
            subst hx
            exact IP_String_addressChar ip hne hip
    · injection h with h
      subst h
      exact hacc

/-- Every string in a list returned by `getAllIPAddresses` is made of
address characters only. -/
theorem getAllIPAddresses_addressChar (fuel : Nat) (s : String) (ips : List String)
    (h : getAllIPAddresses fuel s = .ret ips) :
    ∀ x ∈ ips, ∀ c ∈ x.data, addressChar c = true := by
  simp only [getAllIPAddresses] at h
  split at h
  · cases h
  · rename_i ip ipNet hparse
    exact enumLoop_addressChar ipNet fuel _ [] ips h
      (IP_Mask_lt _ _ (ParseCIDR_mask_lt s ip ipNet hparse)) (by intro x hx; cases hx)

/-- C14: for every list `ips` returned by `getAllIPAddresses`, the json
format prints one JSON object with the single key `ipAddresses`, whose
value is the array of exactly those strings, unchanged and in the same
order, one per line with a 4-space indent inside the 2-space indent of the
key; for the empty list the value is the empty array `[]`, not `null`. -/
theorem printJSON_document (fuel : Nat) (s : String) (ips : List String)
    (h : getAllIPAddresses fuel s = .ret ips) :
    main fuel s "json" false = ⟨printJSON ips, .exited⟩ ∧
    (ips = [] → printJSON ips = "\x7b\n  \"ipAddresses\": []\n\x7d\n") ∧
    (ips ≠ [] → printJSON ips =
      "\x7b\n  \"ipAddresses\": [\n" ++
        ",\n".intercalate (ips.map (fun x => "    \"" ++ x ++ "\"")) ++ "\n  ]\n\x7d\n") := by
  have hj : GoStrings.ToLower "json" = "json" := by decide
  have hchars := getAllIPAddresses_addressChar fuel s ips h
  refine ⟨?_, ?_, ?_⟩
  · simp only [main, h, hj]
    simp
  · intro he
    subst he
    rfl
  · intro hne
    have hq : ips.map (fun x => "    " ++ GoJSON.quote x)
        = ips.map (fun x => "    \"" ++ x ++ "\"") := by
      apply List.map_congr_left
      intro x hx
      rw [quote_addressChars x (hchars x hx)]
      apply String.ext
      simp [String.data_append]
    cases ips with
    | nil => exact absurd rfl hne
    | cons x xs =>
      simp only [printJSON, GoJSON.marshalIndentAddresses, hq]
      simp [String.append_assoc]

theorem printJSON_document_witness :
    getAllIPAddresses 5 "10.0.0.0/30" = .ret ["10.0.0.1", "10.0.0.2", "10.0.0.3"] ∧
    (main 5 "10.0.0.0/30" "json" false
        = ⟨printJSON ["10.0.0.1", "10.0.0.2", "10.0.0.3"], .exited⟩ ∧
      (["10.0.0.1", "10.0.0.2", "10.0.0.3"] = [] →
        printJSON ["10.0.0.1", "10.0.0.2", "10.0.0.3"] = "\x7b\n  \"ipAddresses\": []\n\x7d\n") ∧
      (["10.0.0.1", "10.0.0.2", "10.0.0.3"] ≠ [] →
        printJSON ["10.0.0.1", "10.0.0.2", "10.0.0.3"] =
          "\x7b\n  \"ipAddresses\": [\n" ++
            ",\n".intercalate (["10.0.0.1", "10.0.0.2", "10.0.0.3"].map
              (fun x => "    \"" ++ x ++ "\"")) ++ "\n  ]\n\x7d\n")) :=
  ⟨by decide,
    printJSON_document 5 "10.0.0.0/30" ["10.0.0.1", "10.0.0.2", "10.0.0.3"] (by decide)⟩

/-- The JSON text for `10.0.0.0/30`, and for the empty list of `10.0.0.0/32`. -/
theorem printJSON_examples :
    main 5 "10.0.0.0/30" "json" false =
      ⟨"\x7b\n  \"ipAddresses\": [\n    \"10.0.0.1\",\n    \"10.0.0.2\",\n    \"10.0.0.3\"\n  ]\n\x7d\n",
        .exited⟩ ∧
    main 5 "10.0.0.0/32" "json" false = ⟨"\x7b\n  \"ipAddresses\": []\n\x7d\n", .exited⟩ := by
  refine ⟨by decide, by decide⟩

/-! ## The texts `ParseCIDR` accepts -/

set_option maxRecDepth 100000 in
theorem ubtoa_snoc : ∀ v < 26, 1 ≤ v → ∀ d < 10, v * 10 + d < 256 →
    ubtoa (v * 10 + d) = ubtoa v ++ [digitChar d] := by
  decide

theorem digit_char_eq (c : Char) (h1 : 48 ≤ c.toNat) :
    digitChar (c.toNat - 48) = c := by
  simp only [digitChar]
  rw [show 48 + (c.toNat - 48) = c.toNat by omega]
  exact Char.ofNat_toNat c

theorem intercalate_cons_cons (sep x y : List Char) (ys : List (List Char)) :
    List.intercalate sep (x :: y :: ys) = x ++ sep ++ List.intercalate sep (y :: ys) := by
  simp [List.intercalate, List.intersperse]

/-- The text read by `parseIPv4Fields` is the dotted text of the fields it
returns: with `ds` the digits of the current field read so far, the rest of
the text continues `ds` to the texts of the remaining fields joined by dots. -/
theorem parseIPv4FieldsLoop_text :
    ∀ (cs : List Char) (first prevDot : Bool) (val pos digLen : Nat) (fields r : List Nat)
      (ds : List Char),
      parseIPv4FieldsLoop cs first prevDot val pos digLen fields = some r →
      digLen = ds.length → (ds = [] → val = 0) → (ds ≠ [] → ds = ubtoa val ∧ val < 256) →
      ((first = true ∨ prevDot = true) ↔ ds = []) → (first = true → pos = 0) →
      (prevDot = true → cs ≠ []) →
      ∃ vals : List Nat, vals ≠ [] ∧ r = fields ++ vals ∧
        ds ++ cs = List.intercalate ['.'] (vals.map ubtoa) := by
  intro cs
  induction cs with
  | nil =>
    intro first prevDot val pos digLen fields r ds h hlen h0 hds hfp hfirst hprev
    simp only [parseIPv4FieldsLoop] at h
    split at h
    · cases h
    · rename_i hpos
      injection h with h
      have hne : ds ≠ [] := by
        intro he
        rcases hfp.mpr he with hf | hp
        · have := hfirst hf; omega
        · exact hprev hp rfl
      obtain ⟨hdv, hv⟩ := hds hne
      refine ⟨[val], by simp, ?_, ?_⟩
      · rw [← h, Nat.mod_eq_of_lt hv]
      · simp [List.intercalate, hdv]
  | cons c rest ih =>
    intro first prevDot val pos digLen fields r ds h hlen h0 hds hfp hfirst hprev
    simp only [parseIPv4FieldsLoop] at h
    split at h
    · rename_i hdig
      split at h
      · cases h
      · rename_i hlead
        split at h
        · cases h
        · rename_i hval
          have hnew : ds ++ [c] = ubtoa (val * 10 + (c.toNat - 48)) ∧
              val * 10 + (c.toNat - 48) < 256 := by
            refine ⟨?_, by omega⟩
            by_cases he : ds = []
            · have hv0 := h0 he
              subst he
              rw [hv0]
              have hlt : 0 * 10 + (c.toNat - 48) < 10 := by omega
              simp only [ubtoa, hlt, if_true, List.nil_append]
              rw [show 0 * 10 + (c.toNat - 48) = c.toNat - 48 by omega, digit_char_eq c hdig.1]
            · obtain ⟨hdv, hv⟩ := hds he
              have hv1 : 1 ≤ val := by
                by_contra hcon
                have hz : val = 0 := by omega
                apply hlead
                refine ⟨?_, hz⟩
                rw [hlen, hdv, hz]
                rfl
              rw [ubtoa_snoc val (by omega) hv1 (c.toNat - 48) (by omega) (by omega),
                digit_char_eq c hdig.1, ← hdv]
          obtain ⟨vals, hne, hr, htext⟩ := ih false false _ pos _ fields r (ds ++ [c]) h
            (by simp [hlen]) (by simp) (fun _ => hnew) (by simp) (by simp) (by simp)
          exact ⟨vals, hne, hr, by rw [← htext]; simp⟩
    · split at h
      · rename_i hdot
        subst hdot
        split at h
        · cases h
        · rename_i hchk
          split at h
          · cases h
          · rename_i hpos
            simp only [not_or] at hchk
            have hne : ds ≠ [] := by
              intro he
              rcases hfp.mpr he with hf | hp
              · exact hchk.1 hf
              · exact hchk.2.2 hp
            obtain ⟨hdv, hv⟩ := hds hne
            obtain ⟨vals, hvne, hr, htext⟩ := ih false true 0 (pos + 1) 0 (fields ++ [val % 256]) r []
              h rfl (fun _ => rfl) (fun hcon => absurd rfl hcon) (by simp) (by simp)
              (fun _ => hchk.2.1)
            refine ⟨val :: vals, by simp, ?_, ?_⟩
            · rw [hr, Nat.mod_eq_of_lt hv]; simp
            · cases vals with
              | nil => exact absurd rfl hvne
              | cons w ws =>
                rw [List.map_cons, List.map_cons, intercalate_cons_cons, ← List.map_cons, ← htext,
                  hdv]
                simp
      · cases h

/-- A text accepted by `parseIPv4Fields` is the dotted-decimal text of the
four octets it returns. -/
theorem parseIPv4Fields_text (cs : List Char) (a b c d : Nat)
    (h : parseIPv4Fields cs = some [a, b, c, d]) : cs = dotted a b c d := by
  obtain ⟨vals, -, hr, htext⟩ := parseIPv4FieldsLoop_text cs true false 0 0 0 [] [a, b, c, d] [] h
    rfl (fun _ => rfl) (fun hcon => absurd rfl hcon) (by simp) (fun _ => rfl) (by simp)
  simp only [List.nil_append] at hr htext
  rw [← hr] at htext
  rw [htext]
  simp [List.intercalate, List.intersperse, dotted]

theorem dtoiLoop_text :
    ∀ (cs : List Char) (n i m j : Nat), dtoiLoop cs n i = (m, j, true) → j = i + cs.length →
      (∀ c ∈ cs, decimalDigit c = true) ∧ m = cs.foldl (fun n c => n * 10 + (c.toNat - 48)) n ∧
      (cs = [] → i ≠ 0) := by
  intro cs
  induction cs with
  | nil =>
    intro n i m j h _
    simp only [dtoiLoop] at h
    split at h
    · simp at h
    · rename_i hi
      simp only [Prod.mk.injEq, and_true] at h
      exact ⟨by simp, by simp [h.1], fun _ => hi⟩
  | cons c cs ih =>
    intro n i m j h hj
    simp only [dtoiLoop] at h
    split at h
    · rename_i hdig
      split at h
      · simp at h
      · obtain ⟨h1, h2, -⟩ := ih _ _ m j h (by simp only [List.length_cons] at hj; omega)
        refine ⟨?_, by simpa using h2, by simp⟩
        intro x hx
        rcases List.mem_cons.mp hx with rfl | hx
        · simpa [decimalDigit] using hdig
        · exact h1 x hx
    · split at h
      · simp at h
      · simp only [Prod.mk.injEq, and_true] at h
        simp only [List.length_cons] at hj
        omega

theorem dtoi_text (mask : List Char) (bound : Nat) (h1 : (dtoi mask).2.2 ≠ false)
    (h2 : (dtoi mask).2.1 = mask.length) (h3 : (dtoi mask).1 ≤ bound) :
    IsMaskLength mask bound := by
  have hb : (dtoi mask).2.2 = true := by simpa using h1
  have heq : dtoiLoop mask 0 0 = ((dtoi mask).1, (dtoi mask).2.1, true) := by
    rw [← hb]
    rfl
  obtain ⟨hd, hv, hne⟩ := dtoiLoop_text mask 0 0 _ _ heq (by rw [h2]; simp)
  refine ⟨fun he => hne he rfl, hd, ?_⟩
  simp only [decimalValue]
  rw [← hv]
  exact h3

theorem drop_takeWhile_length (p : Char → Bool) :
    ∀ s : List Char, (s.takeWhile p) ++ s.drop (s.takeWhile p).length = s := by
  intro s
  induction s with
  | nil => rfl
  | cons c cs ih =>
    by_cases hc : p c = true
    · simp [List.takeWhile_cons, hc, ih]
    · simp [List.takeWhile_cons, hc]

theorem takeWhile_isHex_group (s : List Char) (h0 : (s.takeWhile isHex).length ≠ 0)
    (h4 : ¬ (s.takeWhile isHex).length > 4) : IsGroup (s.takeWhile isHex) := by
  refine ⟨fun he => h0 (by rw [he]; rfl), by omega, ?_⟩
  intro c hc
  exact List.mem_takeWhile_imp hc

/-- The text read by the main loop of `parseIPv6`, when the loop uses the
whole text, is a sequence of IPv6 fields; the bytes written and the ellipsis
found are those of the fields. -/
theorem parseIPv6Loop_text :
    ∀ (fuel : Nat) (s : List Char) (bytes : List Nat) (ell : Option Nat) (st : V6State),
      parseIPv6Loop fuel s bytes ell = some st → st.rest = [] → bytes.length < 16 →
      bytes.length % 2 = 0 →
      ∃ n e, Fields6 s n e ∧ st.bytes.length = bytes.length + n ∧ st.bytes.length ≤ 16 ∧
        (e = true → ell = none) ∧ st.ellipsis.isSome = (ell.isSome || e) := by
  intro fuel
  induction fuel with
  | zero => intro s bytes ell st h; simp [parseIPv6Loop] at h
  | succ f ih =>
    intro s bytes ell st h hrest hlen heven
    simp only [parseIPv6Loop] at h
    rw [if_neg (by omega)] at h
    split at h
    · cases h
    · rename_i h4
      split at h
      · cases h
      · rename_i h0
        have hg := takeWhile_isHex_group s h0 h4
        have hs := drop_takeWhile_length isHex s
        split at h
        · -- the text ends with this group
          rename_i hdrop
          injection h with h
          subst h
          rw [hdrop, List.append_nil] at hs
          refine ⟨2, false, ?_, by simp, by simp; omega, by simp, by simp⟩
          rw [← hs]
          exact Fields6.group _ hg
        · rename_i c rest1 hdrop
          rw [hdrop] at hs
          split at h
          · -- an IPv4 address ends the text
            split at h
            · cases h
            · split at h
              · cases h
              · rename_i h16
                split at h
                · cases h
                · rename_i fl hf
                  injection h with h
                  subst h
                  obtain ⟨a, b, c1, d, rfl, ha, hb, hc, hd⟩ := parseIPv4Fields_shape s fl hf
                  have htext := parseIPv4Fields_text s a b c1 d hf
                  refine ⟨4, false, ?_, by simp, by simp; omega, by simp, by simp⟩
                  rw [htext, ← toList_dottedDecimal a b c1 d ha hb hc hd]
                  exact Fields6.quad a b c1 d ha hb hc hd
          · split at h
            · cases h
            · rename_i hcol
              have hc : c = ':' := by simpa using hcol
              subst hc
              split at h
              · cases h
              · rename_i c2 rest2
                split at h
                · rename_i hc2
                  subst hc2
                  split at h
                  · cases h
                  · rename_i hell
                    have hnone : ell = none := by
                      cases ell with
                      | none => rfl
                      | some v => simp at hell
                    split at h
                    · -- the text ends with `::`
                      rename_i hr2
                      injection h with h
                      subst h
                      subst hr2
                      refine ⟨2, true, ?_, by simp, by simp; omega, fun _ => hnone, by simp⟩
                      rw [← hs]
                      exact Fields6.gapEnd _ hg
                    · rename_i hr2
                      have hlen1 : (bytes ++ [List.foldl (fun a c => a * 16 + hexVal c) 0
                          (List.takeWhile isHex s) / 256 % 256,
                          List.foldl (fun a c => a * 16 + hexVal c) 0
                          (List.takeWhile isHex s) % 256]).length = bytes.length + 2 := by simp
                      by_cases h16 : bytes.length + 2 < 16
                      · obtain ⟨n, e, hF, hb1, hb2, he, hse⟩ := ih _ _ _ st h hrest
                          (by rw [hlen1]; exact h16) (by rw [hlen1]; omega)
                        have hef : e = false := by
                          cases e with
                          | false => rfl
                          | true => simpa using he rfl
                        subst hef
                        refine ⟨n + 2, true, ?_, by rw [hb1, hlen1]; omega, hb2, fun _ => hnone,
                          by rw [hse]; simp⟩
                        rw [← hs]
                        exact Fields6.gap _ _ n hg hF
                      · exfalso
                        cases f with
                        | zero => simp [parseIPv6Loop] at h
                        | succ f2 =>
                          simp only [parseIPv6Loop] at h
                          rw [if_pos (by rw [hlen1]; omega)] at h
                          injection h with h
                          subst h
                          exact hr2 hrest
                · rename_i hc2
                  have hlen1 : (bytes ++ [List.foldl (fun a c => a * 16 + hexVal c) 0
                      (List.takeWhile isHex s) / 256 % 256,
                      List.foldl (fun a c => a * 16 + hexVal c) 0
                      (List.takeWhile isHex s) % 256]).length = bytes.length + 2 := by simp
                  by_cases h16 : bytes.length + 2 < 16
                  · obtain ⟨n, e, hF, hb1, hb2, he, hse⟩ := ih _ _ _ st h hrest
                      (by rw [hlen1]; exact h16) (by rw [hlen1]; omega)
                    refine ⟨n + 2, e, ?_, by rw [hb1, hlen1]; omega, hb2, he, hse⟩
                    rw [← hs]
                    exact Fields6.colon _ _ n e hg hF
                  · exfalso
                    cases f with
                    | zero => simp [parseIPv6Loop] at h
                    | succ f2 =>
                      simp only [parseIPv6Loop] at h
                      rw [if_pos (by rw [hlen1]; omega)] at h
                      injection h with h
                      subst h
                      simp at hrest

theorem takeWhile_eq_self (p : Char → Bool) :
    ∀ l : List Char, ¬ (l.takeWhile p).length < l.length → l.takeWhile p = l := by
  intro l
  induction l with
  | nil => intro _; rfl
  | cons c cs ih =>
    intro h
    by_cases hc : p c = true
    · simp only [List.takeWhile_cons, hc, if_true, List.length_cons] at h ⊢
      rw [ih (by omega)]
    · simp [List.takeWhile_cons, hc] at h

theorem split_at_first (p : Char → Bool) :
    ∀ cs : List Char, (cs.takeWhile p).length ≠ cs.length →
      ∃ c, p c = false ∧ cs = cs.takeWhile p ++ c :: cs.drop ((cs.takeWhile p).length + 1) := by
  intro cs
  induction cs with
  | nil => intro h; exact absurd rfl h
  | cons c cs ih =>
    intro h
    by_cases hc : p c = true
    · simp only [List.takeWhile_cons, hc, if_true, List.length_cons] at h ⊢
      obtain ⟨x, hx, hcs⟩ := ih (by omega)
      exact ⟨x, hx, by simp only [List.cons_append, List.drop_succ_cons]; rw [← hcs]⟩
    · refine ⟨c, by simpa using hc, ?_⟩
      simp [List.takeWhile_cons, hc]

theorem parseIPv6_lead (input : List Char) :
    GoNet.parseIPv6.match_1 (fun _ => Bool) input (fun _ => true) (fun _ => false) = true ↔
      ∃ u, input = ':' :: ':' :: u := by
  constructor
  · intro h
    split at h
    · exact ⟨_, rfl⟩
    · cases h
  · rintro ⟨u, rfl⟩
    rfl

/-- An address text accepted by `parseIPv6` without a zone is an IPv6
address text. -/
theorem parseIPv6_text (input : List Char) (addr : Addr) (h : parseIPv6 input = some addr)
    (hz : addr.zone = []) : IsIPv6Addr input ∧ addr.is4 = false := by
  simp only [parseIPv6] at h
  split at h
  · cases h
  · rename_i hzone
    -- the zone is empty, so there is no percent sign and the whole text is the address
    have hzone_eq : addr.zone = input.drop ((input.takeWhile (fun c => decide (c ≠ '%'))).length + 1) := by
      split at h
      · injection h with h; rw [← h]
      · split at h
        · cases h
        · split at h
          · cases h
          · split at h
            · split at h
              · cases h
              · injection h with h; rw [← h]
            · split at h
              · cases h
              · injection h with h; rw [← h]
    have hno : ¬ (input.takeWhile (fun c => decide (c ≠ '%'))).length < input.length := by
      intro hlt
      apply hzone
      refine ⟨by simpa using hlt, ?_⟩
      rw [← hzone_eq, hz]
    have hs0 := takeWhile_eq_self _ input hno
    rw [hs0] at h
    have hleadspec := parseIPv6_lead input
    generalize GoNet.parseIPv6.match_1 (fun _ => Bool) input (fun _ => true) (fun _ => false)
      = lead at h hleadspec
    cases lead with
    | true =>
      obtain ⟨u, hu⟩ := hleadspec.mp rfl
      subst hu
      by_cases hu : u = []
      · subst hu
        exact ⟨Or.inr (Or.inr (Or.inl rfl)), by
          simp only [List.length_cons, List.length_nil, and_self, if_true] at h
          injection h with h
          rw [← h]⟩
      · have hlen : ¬ (true = true ∧ (':' :: ':' :: u).length = 2) := by
          intro hcon
          apply hu
          have := hcon.2
          simp only [List.length_cons] at this
          exact List.length_eq_zero.mp (by omega)
        rw [if_neg hlen] at h
        simp only [if_true, List.drop_succ_cons, List.drop_zero] at h
        split at h
        · cases h
        · rename_i st hloop
          split at h
          · cases h
          · rename_i hrest
            have hrest : st.rest = [] := by simpa using hrest
            obtain ⟨n, e, hF, hb1, hb2, he, hse⟩ := parseIPv6Loop_text 9 u [] (some 0) st hloop hrest
              (by simp) (by simp)
            have hef : e = false := by
              cases e with
              | false => rfl
              | true => simpa using he rfl
            subst hef
            have hsome : st.ellipsis.isSome = true := by rw [hse]; simp
            simp only [List.length_nil, Nat.zero_add] at hb1
            split at h
            · rename_i hlt
              split at h
              · cases h
              · injection h with h
                exact ⟨Or.inr (Or.inr (Or.inr ⟨u, n, by omega, hF, rfl⟩)), by rw [← h]⟩
            · simp [hsome] at h
    | false =>
      simp only [Bool.false_eq_true, false_and, if_false] at h
      split at h
      · cases h
      · rename_i st hloop
        split at h
        · cases h
        · rename_i hrest
          have hrest : st.rest = [] := by simpa using hrest
          obtain ⟨n, e, hF, hb1, hb2, he, hse⟩ := parseIPv6Loop_text 9 input [] none st hloop hrest
            (by simp) (by simp)
          simp only [List.length_nil, Nat.zero_add] at hb1
          simp only [Option.isSome_none, Bool.false_or] at hse
          split at h
          · rename_i hlt
            split at h
            · cases h
            · rename_i ev hev
              injection h with h
              have he1 : e = true := by rw [← hse, hev]; rfl
              subst he1
              exact ⟨Or.inr (Or.inl ⟨n, by omega, hF⟩), by rw [← h]⟩
          · rename_i hge
            split at h
            · cases h
            · rename_i hns
              injection h with h
              have he0 : e = false := by
                rw [← hse]
                simpa using hns
              subst he0
              have hn : n = 16 := by omega
              subst hn
              exact ⟨Or.inl hF, by rw [← h]⟩

/-- Every text `ParseCIDR` accepts has the form `A.B.C.D/N` or the form of
an IPv6 CIDR descriptor. -/
theorem ParseCIDR_text (s : String) (r : IP × IPNet) (h : ParseCIDR s = .ok r) :
    IsIPv4Text s ∨ IsIPv6Text s := by
  simp only [ParseCIDR] at h
  split at h
  · cases h
  · rename_i hlen
    obtain ⟨sl, hsl, hsplit⟩ := split_at_first (fun c => decide (c ≠ '/')) s.toList hlen
    have hslash : sl = '/' := by simpa using hsl
    subst hslash
    split at h
    · cases h
    · rename_i ipAddr hpa
      split at h
      · cases h
      · rename_i hzone
        have hz : ipAddr.zone = [] := by simpa using hzone
        split at h
        · cases h
        · rename_i hchk
          simp only [not_or] at hchk
          obtain ⟨hc1, hc2, hc3⟩ := hchk
          have hmask := dtoi_text _ ipAddr.BitLen hc1 (not_not.mp hc2) (Nat.le_of_not_gt hc3)
          simp only [ParseAddr] at hpa
          split at hpa
          · rename_i m hm
            split at hpa
            · simp only [parseIPv4, Option.map_eq_some'] at hpa
              obtain ⟨f, hf, hip⟩ := hpa
              obtain ⟨a, b, c, d, rfl, ha, hb, hc, hd⟩ := parseIPv4Fields_shape _ f hf
              subst hip
              have htext := parseIPv4Fields_text _ a b c d hf
              simp only [Addr.BitLen, if_true] at hmask
              refine Or.inl ⟨a, b, c, d, _, ha, hb, hc, hd, hmask, ?_⟩
              rw [toList_dottedDecimal a b c d ha hb hc hd, ← htext]
              exact hsplit
            · split at hpa
              · obtain ⟨h6, his4⟩ := parseIPv6_text _ ipAddr hpa hz
                simp only [Addr.BitLen, his4, Bool.false_eq_true, if_false] at hmask
                exact Or.inr ⟨_, _, h6, hmask, hsplit⟩
              · cases hpa
          · cases hpa

theorem isHex_not_mark (c : Char) (h : hexChar c = true) : ¬ (c = '.' ∨ c = ':' ∨ c = '%') := by
  rintro (rfl | rfl | rfl) <;> revert h <;> decide

theorem firstMark_group (g : List Char) (hg : ∀ c ∈ g, hexChar c = true) (rest : List Char) :
    firstMark (g ++ rest) = firstMark rest := by
  induction g with
  | nil => rfl
  | cons c cs ih =>
    have hc := isHex_not_mark c (hg c (List.mem_cons_self _ _))
    simp only [List.cons_append, firstMark, hc, if_false]
    exact ih (fun x hx => hg x (List.mem_cons_of_mem _ hx))

theorem firstMark_append_some (t rest : List Char) (m : Char) (h : firstMark t = some m) :
    firstMark (t ++ rest) = some m := by
  induction t with
  | nil => cases h
  | cons c cs ih =>
    simp only [firstMark, List.cons_append] at h ⊢
    split_ifs at h ⊢
    · exact h
    · exact ih h

/-- In an IPv6 address text a colon comes before any dot or percent sign. -/
theorem IsIPv6Addr_firstMark (t : List Char) (h : IsIPv6Addr t) : firstMark t = some ':' := by
  have key : ∀ t n e, Fields6 t n e →
      firstMark t = some ':' ∨ (n = 2 ∧ e = false) ∨ (n = 4 ∧ e = false) := by
    intro t n e hF
    cases hF with
    | group g hg => exact Or.inr (Or.inl ⟨rfl, rfl⟩)
    | quad a b c d => exact Or.inr (Or.inr ⟨rfl, rfl⟩)
    | colon g u n e hg hu =>
      left
      rw [firstMark_group g hg.2.2]
      simp [firstMark]
    | gap g u n hg hu =>
      left
      rw [firstMark_group g hg.2.2]
      simp [firstMark]
    | gapEnd g hg =>
      left
      rw [firstMark_group g hg.2.2]
      simp [firstMark]
  rcases h with h | ⟨n, hn, h⟩ | h | ⟨u, n, hn, hu, rfl⟩
  · rcases key _ _ _ h with h | ⟨h, -⟩ | ⟨h, -⟩
    · exact h
    · omega
    · omega
  · rcases key _ _ _ h with h | ⟨-, h⟩ | ⟨-, h⟩
    · exact h
    · cases h
    · cases h
  · subst h; rfl
  · simp [firstMark]

theorem IsIPv6Text_firstMark (s : String) (h : IsIPv6Text s) : firstMark s.toList = some ':' := by
  obtain ⟨t, ds, ht, -, hs⟩ := h
  rw [hs]
  exact firstMark_append_some t _ ':' (IsIPv6Addr_firstMark t ht)

theorem foldl_decimal_ge (cs : List Char) :
    ∀ n, n ≤ cs.foldl (fun n c => n * 10 + (c.toNat - 48)) n := by
  induction cs with
  | nil => intro n; exact le_refl _
  | cons c cs ih =>
    intro n
    simp only [List.foldl_cons]
    have := ih (n * 10 + (c.toNat - 48))
    omega

theorem dtoiLoop_digits :
    ∀ (cs : List Char) (n i : Nat), (∀ c ∈ cs, decimalDigit c = true) →
      cs.foldl (fun n c => n * 10 + (c.toNat - 48)) n < 16777215 → i + cs.length ≠ 0 →
      dtoiLoop cs n i = (cs.foldl (fun n c => n * 10 + (c.toNat - 48)) n, i + cs.length, true) := by
  intro cs
  induction cs with
  | nil =>
    intro n i _ _ hi
    simp only [List.length_nil, Nat.add_zero] at hi
    simp [dtoiLoop, hi]
  | cons c cs ih =>
    intro n i hd hv hi
    have hc : 48 ≤ c.toNat ∧ c.toNat ≤ 57 := by
      simpa [decimalDigit] using hd c (List.mem_cons_self _ _)
    simp only [List.foldl_cons] at hv ⊢
    have hge := foldl_decimal_ge cs (n * 10 + (c.toNat - 48))
    simp only [dtoiLoop, hc, and_self, if_true]
    rw [if_neg (by omega), ih _ _ (fun x hx => hd x (List.mem_cons_of_mem _ hx)) hv (by omega)]
    simp only [List.length_cons]
    congr 2
    omega

/-- Every text of the form `A.B.C.D/N` is accepted by `ParseCIDR`. -/
theorem IsIPv4Text_accepted (s : String) (h : IsIPv4Text s) : ∃ r, ParseCIDR s = .ok r := by
  obtain ⟨a, b, c, d, ds, ha, hb, hc, hd, ⟨hne, hdig, hval⟩, hs⟩ := h
  rw [toList_dottedDecimal a b c d ha hb hc hd] at hs
  have htw : List.takeWhile (fun c => decide (c ≠ '/')) (dotted a b c d ++ '/' :: ds)
      = dotted a b c d := by
    rw [List.takeWhile_append_of_pos (dotted_no_slash a b c d ha hb hc hd)]
    simp
  have hmark : firstMark (dotted a b c d) = some '.' := by
    simp only [dotted]
    exact firstMark_ubtoa a ha _
  have hdrop : List.drop ((dotted a b c d).length + 1) (dotted a b c d ++ '/' :: ds) = ds := by
    rw [show dotted a b c d ++ '/' :: ds = (dotted a b c d ++ ['/']) ++ ds by simp]
    rw [List.drop_append_of_le_length (by simp)]
    simp
  have hdt : dtoi ds = (decimalValue ds, ds.length, true) := by
    have := dtoiLoop_digits ds 0 0 hdig (by simp only [decimalValue] at hval; omega)
      (by simp only [Nat.zero_add]; exact fun h0 => hne (List.length_eq_zero.mp h0))
    simpa [dtoi, decimalValue] using this
  simp only [ParseCIDR, hs, htw, hdrop, ParseAddr, hmark, parseIPv4,
    parseIPv4Fields_dotted a b c d ha hb hc hd, Option.map_some', Addr.BitLen, hdt, if_true]
  rw [if_neg (by simp), if_neg (by simp), if_neg (by simp; omega)]
  exact ⟨_, rfl⟩

/-! ## Arguments of neither form are fatal (C8) -/

theorem not_IsIPv4Text_of_error (s e : String) (h : ParseCIDR s = .error e) : ¬ IsIPv4Text s := by
  intro h4
  obtain ⟨r, hr⟩ := IsIPv4Text_accepted s h4
  rw [h] at hr
  cases hr

theorem not_IsIPv6Text_of_firstMark (s : String) (h : firstMark s.toList ≠ some ':') :
    ¬ IsIPv6Text s :=
  fun h6 => h (IsIPv6Text_firstMark s h6)

/-- C8, as the code has it: for every argument that has neither the form
`A.B.C.D/N` (four octets in 0..255 written without leading zeros, `N` a
decimal numeral of a value in 0..32) nor the form of an IPv6 CIDR
descriptor (an IPv6 address text, a slash, a mask length in 0..128),
`ParseCIDR` fails, so `getAllIPAddresses` and `getFirstAndLastIP` take the
fatal branch and, for every format, `main` prints nothing on standard
output and ends with the fatal parse error. -/
theorem malformed_argument_is_fatal (s : String) (h4 : ¬ IsIPv4Text s) (h6 : ¬ IsIPv6Text s) :
    (∀ fuel, getAllIPAddresses fuel s = .fatal ("invalid CIDR address: " ++ s)) ∧
    getFirstAndLastIP s = .fatal ("invalid CIDR address: " ++ s) ∧
    ∀ fuel format, main fuel s format false = ⟨"", .fatal ("invalid CIDR address: " ++ s)⟩ := by
  have herr : ParseCIDR s = .error ("invalid CIDR address: " ++ s) := by
    rcases ParseCIDR_error_text s with ⟨r, hr⟩ | he
    · rcases ParseCIDR_text s r hr with h | h
      · exact absurd h h4
      · exact absurd h h6
    · exact he
  have hall : ∀ fuel, getAllIPAddresses fuel s = .fatal ("invalid CIDR address: " ++ s) := by
    intro fuel
    simp only [getAllIPAddresses, herr]
  have hfl : getFirstAndLastIP s = .fatal ("invalid CIDR address: " ++ s) := by
    simp only [getFirstAndLastIP, herr]
  refine ⟨hall, hfl, ?_⟩
  intro fuel format
  simp only [main, hall, hfl]
  split <;> simp [Run.stopped]

theorem malformed_argument_is_fatal_witness :
    ¬ IsIPv4Text "300.1.1.1/24" ∧ ¬ IsIPv6Text "300.1.1.1/24" ∧
    (∀ fuel, getAllIPAddresses fuel "300.1.1.1/24"
        = .fatal ("invalid CIDR address: " ++ "300.1.1.1/24")) ∧
    getFirstAndLastIP "300.1.1.1/24" = .fatal ("invalid CIDR address: " ++ "300.1.1.1/24") ∧
    ∀ fuel format, main fuel "300.1.1.1/24" format false
        = ⟨"", .fatal ("invalid CIDR address: " ++ "300.1.1.1/24")⟩ :=
  ⟨not_IsIPv4Text_of_error _ "invalid CIDR address: 300.1.1.1/24" (by rfl),
    not_IsIPv6Text_of_firstMark _ (by decide),
    malformed_argument_is_fatal "300.1.1.1/24"
      (not_IsIPv4Text_of_error _ "invalid CIDR address: 300.1.1.1/24" (by rfl))
      (not_IsIPv6Text_of_firstMark _ (by decide))⟩

/-- Texts of neither form: no slash, an octet above 255, a port after the
address, a mask length above 32, an octet with a leading zero, three octets
only. -/
theorem malformed_examples :
    (¬ IsIPv4Text "not-a-subnet" ∧ ¬ IsIPv6Text "not-a-subnet") ∧
    (¬ IsIPv4Text "300.1.1.1/24" ∧ ¬ IsIPv6Text "300.1.1.1/24") ∧
    (¬ IsIPv4Text "1.2.3.4:5/24" ∧ ¬ IsIPv6Text "1.2.3.4:5/24") ∧
    (¬ IsIPv4Text "10.0.0.0/33" ∧ ¬ IsIPv6Text "10.0.0.0/33") ∧
    (¬ IsIPv4Text "010.0.0.0/8" ∧ ¬ IsIPv6Text "010.0.0.0/8") ∧
    (¬ IsIPv4Text "10.0.0/24" ∧ ¬ IsIPv6Text "10.0.0/24") := by
  refine ⟨⟨?_, ?_⟩, ⟨?_, ?_⟩, ⟨?_, ?_⟩, ⟨?_, ?_⟩, ⟨?_, ?_⟩, ⟨?_, ?_⟩⟩
  · exact not_IsIPv4Text_of_error _ "invalid CIDR address: not-a-subnet" (by rfl)
  · exact not_IsIPv6Text_of_firstMark _ (by decide)
  · exact not_IsIPv4Text_of_error _ "invalid CIDR address: 300.1.1.1/24" (by rfl)
  · exact not_IsIPv6Text_of_firstMark _ (by decide)
  · exact not_IsIPv4Text_of_error _ "invalid CIDR address: 1.2.3.4:5/24" (by rfl)
  · exact not_IsIPv6Text_of_firstMark _ (by decide)
  · exact not_IsIPv4Text_of_error _ "invalid CIDR address: 10.0.0.0/33" (by rfl)
  · exact not_IsIPv6Text_of_firstMark _ (by decide)
  · exact not_IsIPv4Text_of_error _ "invalid CIDR address: 010.0.0.0/8" (by rfl)
  · exact not_IsIPv6Text_of_firstMark _ (by decide)
  · exact not_IsIPv4Text_of_error _ "invalid CIDR address: 10.0.0/24" (by rfl)
  · exact not_IsIPv6Text_of_firstMark _ (by decide)

/-- The canonical text of a descriptor has the form `A.B.C.D/N`, and so has
a text with leading zeros in the mask length. -/
theorem IsIPv4Text_examples :
    IsIPv4Text "10.0.0.0/24" ∧ IsIPv4Text "192.168.1.77/024" := by
  constructor
  · exact ⟨10, 0, 0, 0, ['2', '4'], by decide, by decide, by decide, by decide,
      ⟨by decide, by decide, by decide⟩, by decide⟩
  · exact ⟨192, 168, 1, 77, ['0', '2', '4'], by decide, by decide, by decide, by decide,
      ⟨by decide, by decide, by decide⟩, by decide⟩

/-! ## Malformed texts with colons -/

theorem hexChar_not_slash (c : Char) (h : hexChar c = true) : c ≠ '/' := by
  rintro rfl
  revert h
  decide

theorem Fields6_chars : ∀ (t : List Char) (n : Nat) (e : Bool), Fields6 t n e →
    (∀ c ∈ t, c ≠ '/') ∧ n ≤ 2 * t.count ':' + 4 ∧ (e = true → [':', ':'] <:+: t) := by
  intro t n e h
  induction h with
  | group g hg =>
    exact ⟨fun c hc => hexChar_not_slash c (hg.2.2 c hc), by omega, by simp⟩
  | quad a b c d ha hb hc hd =>
    refine ⟨?_, by omega, by simp⟩
    intro x hx
    rw [toList_dottedDecimal a b c d ha hb hc hd] at hx
    simpa using dotted_no_slash a b c d ha hb hc hd x hx
  | colon g u n e hg _ ih =>
    obtain ⟨h1, h2, h3⟩ := ih
    refine ⟨?_, ?_, ?_⟩
    · intro c hc
      rcases List.mem_append.mp hc with hc | hc
      · exact hexChar_not_slash c (hg.2.2 c hc)
      · rcases List.mem_cons.mp hc with rfl | hc
        · decide
        · exact h1 c hc
    · simp only [List.count_append, List.count_cons_self]
      omega
    · intro he
      obtain ⟨p, q, hpq⟩ := h3 he
      exact ⟨g ++ ':' :: p, q, by rw [← hpq]; simp⟩
  | gap g u n hg _ ih =>
    obtain ⟨h1, h2, -⟩ := ih
    refine ⟨?_, ?_, ?_⟩
    · intro c hc
      rcases List.mem_append.mp hc with hc | hc
      · exact hexChar_not_slash c (hg.2.2 c hc)
      · rcases List.mem_cons.mp hc with rfl | hc
        · decide
        · rcases List.mem_cons.mp hc with rfl | hc
          · decide
          · exact h1 c hc
    · simp only [List.count_append, List.count_cons_self]
      omega
    · intro _
      exact ⟨g, u, by simp⟩
  | gapEnd g hg =>
    refine ⟨?_, by omega, ?_⟩
    · intro c hc
      rcases List.mem_append.mp hc with hc | hc
      · exact hexChar_not_slash c (hg.2.2 c hc)
      · simp only [List.mem_cons, List.mem_singleton, List.not_mem_nil, or_false, or_self] at hc
        subst hc
        decide
    · intro _
      exact ⟨g, [], by simp⟩

/-- A text with a slash whose part before the first slash has fewer than six
colons and no two colons in a row is not an IPv6 CIDR text. -/
theorem not_IsIPv6Text_of_few_colons (s : String)
    (hcount : (s.toList.takeWhile (fun c => decide (c ≠ '/'))).count ':' < 6)
    (hpair : ¬ [':', ':'] <:+: s.toList.takeWhile (fun c => decide (c ≠ '/'))) :
    ¬ IsIPv6Text s := by
  rintro ⟨t, ds, ht, -, hs⟩
  have hnoslash : ∀ c ∈ t, c ≠ '/' := by
    rcases ht with h | ⟨n, -, h⟩ | h | ⟨u, n, -, hu, rfl⟩
    · exact (Fields6_chars _ _ _ h).1
    · exact (Fields6_chars _ _ _ h).1
    · subst h
      intro c hc
      simp only [List.mem_cons, List.mem_singleton, List.not_mem_nil, or_false, or_self] at hc
      subst hc
      decide
    · intro c hc
      rcases List.mem_cons.mp hc with rfl | hc
      · decide
      · rcases List.mem_cons.mp hc with rfl | hc
        · decide
        · exact (Fields6_chars _ _ _ hu).1 c hc
  have htw : s.toList.takeWhile (fun c => decide (c ≠ '/')) = t := by
    rw [hs, List.takeWhile_append_of_pos (fun c hc => by simpa using hnoslash c hc)]
    simp
  rw [htw] at hcount hpair
  rcases ht with h | ⟨n, -, h⟩ | h | ⟨u, n, -, hu, rfl⟩
  · have := (Fields6_chars _ _ _ h).2.1
    omega
  · exact hpair ((Fields6_chars _ _ _ h).2.2 rfl)
  · subst h
    exact hpair ⟨[], [], rfl⟩
  · exact hpair ⟨[], u, rfl⟩

/-- Malformed texts that contain colons: too few groups, and a port after
an IPv4 address. -/
theorem malformed_colon_examples :
    (¬ IsIPv4Text "1:2/3" ∧ ¬ IsIPv6Text "1:2/3") ∧
    (¬ IsIPv4Text "10.0.0.1:80/24" ∧ ¬ IsIPv6Text "10.0.0.1:80/24") ∧
    IsIPv6Text "::1/128" := by
  refine ⟨⟨?_, ?_⟩, ⟨?_, ?_⟩, ?_⟩
  · exact not_IsIPv4Text_of_error _ "invalid CIDR address: 1:2/3" (by rfl)
  · exact not_IsIPv6Text_of_few_colons _ (by decide) (by decide)
  · exact not_IsIPv4Text_of_error _ "invalid CIDR address: 10.0.0.1:80/24" (by rfl)
  · exact not_IsIPv6Text_of_few_colons _ (by decide) (by decide)
  · refine ⟨[':', ':', '1'], ['1', '2', '8'], ?_, ⟨by decide, by decide, by decide⟩, by decide⟩
    exact Or.inr (Or.inr (Or.inr ⟨['1'], 2, by decide, Fields6.group _ ⟨by decide, by decide, by decide⟩,
      rfl⟩))

end Subneter
